import Mathlib

/-!
Verification of the votelib voting-system evaluation library.

The library evaluates election results: seat distributions (largest
remainder, highest averages, biproportional apportionment), transferable
vote selections (STV), and Condorcet pairwise selections, composed through
wrapper evaluators.  The algorithm implementations are modelled here from
the specification; all arithmetic on rational numbers is exact, realised
through integer numerator and denominator computations so that every
definition evaluates by kernel reduction.

The file is organised as the definitions of the data model and the
algorithms first, followed by the supporting lemmas and the theorems that
settle the specified properties.
-/

namespace Votelib

/-! ## Exact rational arithmetic helpers

The specification demands exact rational arithmetic for quota and divisor
computations.  We realise division and multiplication of rationals through
integer operations on numerator and denominator, and relate them to the
field operations of the rational numbers for proving. -/

/-- Exact division of rationals through numerator and denominator. -/
def ratDiv (x y : ℚ) : ℚ := Rat.divInt (x.num * y.den) (x.den * y.num)

/-- Exact multiplication of rationals through numerator and denominator. -/
def ratMul (x y : ℚ) : ℚ := Rat.divInt (x.num * y.num) (x.den * y.den)

/-- The fractional remainder of a rational number over its floor. -/
def fract (x : ℚ) : ℚ := Rat.divInt (x.num - ⌊x⌋ * x.den) x.den

/-- Decidable equality of evaluation results. -/
instance exceptDecEq {ε β : Type} [DecidableEq ε] [DecidableEq β] :
    DecidableEq (Except ε β) := fun a b =>
  match a, b with
  | .error e, .error f =>
    match decEq e f with
    | isTrue h => isTrue (by rw [h])
    | isFalse h => isFalse (by intro hc; cases hc; exact h rfl)
  | .error _, .ok _ => isFalse (by intro hc; cases hc)
  | .ok _, .error _ => isFalse (by intro hc; cases hc)
  | .ok x, .ok y =>
    match decEq x y with
    | isTrue h => isTrue (by rw [h])
    | isFalse h => isFalse (by intro hc; cases hc; exact h rfl)

section TiedDefs

variable {α : Type} {β : Type} [DecidableEq α] [DecidableEq β] [LinearOrder β]

/-- All options of an association list achieving the maximal value.  A
decisive criterion discriminates exactly when this list is a singleton;
otherwise the list is reported as a tie. -/
def tiedMax (l : List (α × β)) : List α :=
  match (l.map Prod.snd).max? with
  | none => []
  | some m => (l.filter (fun p => p.2 = m)).map Prod.fst

/-- All options of an association list achieving the minimal value. -/
def tiedMin (l : List (α × β)) : List α :=
  match (l.map Prod.snd).min? with
  | none => []
  | some m => (l.filter (fun p => p.2 = m)).map Prod.fst

end TiedDefs

/-! ## Quota functions and divisor sequences (spec 4.1)

Modelled from the spec: the quota and divisor components of the library
are missing from the sources; a quota function maps total valid votes and
seats to a positive rational threshold, and a divisor sequence is an
ordered sequence of positive rationals indexed from one. -/

/-- Modelled from the spec: the Hare quota, total votes over seats. -/
def hareQuota (votes seats : ℕ) : ℚ := ratDiv (votes : ℚ) ((seats : ℕ) : ℚ)

/-- Modelled from the spec: the Droop quota, the integer part of votes
over seats plus one, plus one. -/
def droopQuota (votes seats : ℕ) : ℚ := Rat.divInt ((votes / (seats + 1) + 1 : ℕ) : ℤ) 1

/-- Modelled from the spec: the Hagenbach-Bischoff quota. -/
def hagenbachBischoffQuota (votes seats : ℕ) : ℚ := ratDiv (votes : ℚ) ((seats + 1 : ℕ) : ℚ)

/-- Modelled from the spec: the Imperiali quota. -/
def imperialiQuota (votes seats : ℕ) : ℚ := ratDiv (votes : ℚ) ((seats + 2 : ℕ) : ℚ)

/-- Modelled from the spec: the d_hondt divisor sequence 1, 2, 3, ... -/
def dHondtDivisor (k : ℕ) : ℚ := ((k : ℕ) : ℚ)

/-- Modelled from the spec: the sainte_lague divisor sequence 1, 3, 5, ... -/
def sainteLagueDivisor (k : ℕ) : ℚ := ((2 * k - 1 : ℕ) : ℚ)

/-! ## Largest remainder apportionment (spec 4.2) -/

section LargestRemainderDefs

variable {α : Type} [DecidableEq α]

/-- Seats awarded to a vote count in the first pass: the floor of votes
over quota. -/
def lrFloor (q : ℚ) (v : ℕ) : ℕ := (⌊ratDiv ((v : ℕ) : ℚ) q⌋).toNat

/-- The fractional remainder of votes over quota. -/
def lrFrac (q : ℚ) (v : ℕ) : ℚ := fract (ratDiv ((v : ℕ) : ℚ) q)

/-- The total of first-pass seats. -/
def lrFloorSum (q : ℚ) (votes : List (α × ℕ)) : ℕ :=
  (votes.map fun p => lrFloor q p.2).sum

/-- The options ordered by decreasing fractional remainder; options with
equal remainders keep their input order, the deterministic stand-in for
the pluggable tie-break policy. -/
def lrSorted (q : ℚ) (votes : List (α × ℕ)) : List (α × ℕ) :=
  List.insertionSort (fun p₁ p₂ => lrFrac q p₂.2 ≤ lrFrac q p₁.2) votes

/-- The options awarded one remainder seat each: the first k options by
decreasing fractional remainder. -/
def lrWinners (q : ℚ) (votes : List (α × ℕ)) (k : ℕ) : List α :=
  ((lrSorted q votes).take k).map Prod.fst

/-- The final largest-remainder distribution: first-pass seats plus one
remainder seat for the winners. -/
def lrAward (q : ℚ) (votes : List (α × ℕ)) (k : ℕ) : List (α × ℕ) :=
  votes.map fun p => (p.1, lrFloor q p.2 + if p.1 ∈ lrWinners q votes k then 1 else 0)

/-- The quota used for an evaluation: the configured quota function
applied to total votes and seats. -/
def lrQuota (quotaF : ℕ → ℕ → ℚ) (votes : List (α × ℕ)) (n : ℕ) : ℚ :=
  quotaF ((votes.map Prod.snd).sum) n

/-- The total of seats awarded by a distribution result. -/
def distTotal (res : List (α × ℕ)) : ℕ := (res.map Prod.snd).sum

/-- Modelled from the spec: largest remainder apportionment.  Award the
floor of votes over quota to every option; an overaward is a
configuration error; remaining seats go one each to the options with the
largest fractional remainders. -/
def LargestRemainder.evaluate (quotaF : ℕ → ℕ → ℚ) (votes : List (α × ℕ)) (n : ℕ) :
    Except String (List (α × ℕ)) :=
  if n < lrFloorSum (lrQuota quotaF votes n) votes then
    .error "overaward: first-pass seats exceed the seats to award"
  else
    .ok (lrAward (lrQuota quotaF votes n) votes
      (n - lrFloorSum (lrQuota quotaF votes n) votes))

end LargestRemainderDefs

/-! ## Highest averages apportionment (spec 4.2) -/

section HighestAveragesDefs

variable {α : Type} [DecidableEq α]

/-- The comparison value of an option holding s seats: votes over the
divisor at index s + 1. -/
def haQuotient (d : ℕ → ℚ) (v s : ℕ) : ℚ := ratDiv ((v : ℕ) : ℚ) (d (s + 1))

/-- One round of highest averages: the option with the strictly largest
comparison value wins the next seat; a tie is reported with the tied
options. -/
def haRound (d : ℕ → ℚ) (cs : List α) (v : α → ℕ) (seats : α → ℕ) :
    Except (List α) α :=
  match tiedMax (cs.map fun c => (c, haQuotient d (v c) (seats c))) with
  | [x] => .ok x
  | xs => .error xs

/-- Modelled from the spec: highest averages apportionment, iteratively
awarding each of n seats to the option maximising votes over the divisor
of its next seat. -/
def haRun (d : ℕ → ℚ) (cs : List α) (v : α → ℕ) : ℕ → Except (List α) (α → ℕ)
  | 0 => .ok fun _ => 0
  | n + 1 =>
    match haRun d cs v n with
    | .error e => .error e
    | .ok s =>
      match haRound d cs v s with
      | .error e => .error e
      | .ok w => .ok fun c => if c = w then s c + 1 else s c

/-- The seat count of one option after a highest-averages evaluation. -/
def haSeats (d : ℕ → ℚ) (cs : List α) (v : α → ℕ) (n : ℕ) (c : α) : Option ℕ :=
  (haRun d cs v n).toOption.map fun s => s c

/-- The highest-averages distribution result over the option list. -/
def HighestAverages.evaluate (d : ℕ → ℚ) (cs : List α) (v : α → ℕ) (n : ℕ) :
    Except (List α) (List (α × ℕ)) :=
  match haRun d cs v n with
  | .error e => .error e
  | .ok s => .ok (cs.map fun c => (c, s c))

end HighestAveragesDefs

/-! ## Biproportional apportionment (spec 4.2) -/

section BiproportionalDefs

variable {δ : Type} {π : Type}

/-- The rounded seat matrix for given row and column divisors: votes
scaled down by both divisors and rounded down. -/
def bipropMatrix (v : δ → π → ℕ) (rowDiv : δ → ℚ) (colDiv : π → ℚ)
    (dI : δ) (p : π) : ℕ :=
  (⌊ratDiv ((v dI p : ℕ) : ℚ) (ratMul (rowDiv dI) (colDiv p))⌋).toNat

/-- The seats of one district row. -/
def rowSum (ps : List π) (M : δ → π → ℕ) (dI : δ) : ℕ := (ps.map (M dI)).sum

/-- The seats of one party column. -/
def colSum (ds : List δ) (M : δ → π → ℕ) (p : π) : ℕ :=
  (ds.map fun dI => M dI p).sum

/-- Convergence test: the rounded matrix meets both marginal seat
totals. -/
def bipropConverged (ds : List δ) (ps : List π) (rd : δ → ℕ) (rp : π → ℕ)
    (M : δ → π → ℕ) : Bool :=
  ds.all (fun dI => rowSum ps M dI = rd dI) && ps.all (fun p => colSum ds M p = rp p)

/-- Modelled from the spec: the alternating divisor adjustment of
biproportional apportionment, run under a fixed iteration cap.  Each
iteration checks convergence of the rounded matrix against both marginal
totals and otherwise rescales the row divisors and then the column
divisors towards their targets; an exhausted cap is a voting-system
error, never an endless loop. -/
def bipropIter (v : δ → π → ℕ) (ds : List δ) (ps : List π)
    (rd : δ → ℕ) (rp : π → ℕ) :
    ℕ → (δ → ℚ) → (π → ℚ) → Except String (δ → π → ℕ)
  | 0, _, _ => .error "biproportional apportionment did not converge"
  | fuel + 1, rowDiv, colDiv =>
    if bipropConverged ds ps rd rp (bipropMatrix v rowDiv colDiv) then
      .ok (bipropMatrix v rowDiv colDiv)
    else
      bipropIter v ds ps rd rp fuel
        (fun dI => ratMul (rowDiv dI)
          (ratDiv ((rowSum ps (bipropMatrix v rowDiv colDiv) dI + 1 : ℕ) : ℚ)
            ((rd dI + 1 : ℕ) : ℚ)))
        (fun p => ratMul (colDiv p)
          (ratDiv ((colSum ds (bipropMatrix v rowDiv colDiv) p + 1 : ℕ) : ℚ)
            ((rp p + 1 : ℕ) : ℚ)))

/-- Modelled from the spec: biproportional apportionment from a vote
matrix and independent district and party seat totals, with row divisors
initialised to district vote totals over district seats and column
divisors to one. -/
def BiproportionalEvaluator.evaluate (v : δ → π → ℕ) (ds : List δ) (ps : List π)
    (rd : δ → ℕ) (rp : π → ℕ) : Except String (δ → π → ℕ) :=
  bipropIter v ds ps rd rp 100
    (fun dI => ratDiv (((ps.map (v dI)).sum : ℕ) : ℚ) ((rd dI : ℕ) : ℚ))
    (fun _ => (1 : ℚ))

/-- The row seat total of one district in a biproportional result. -/
def bipropRowSum (v : δ → π → ℕ) (ds : List δ) (ps : List π)
    (rd : δ → ℕ) (rp : π → ℕ) (dI : δ) : Option ℕ :=
  (BiproportionalEvaluator.evaluate v ds ps rd rp).toOption.map fun M => rowSum ps M dI

/-- The column seat total of one party in a biproportional result. -/
def bipropColSum (v : δ → π → ℕ) (ds : List δ) (ps : List π)
    (rd : δ → ℕ) (rp : π → ℕ) (p : π) : Option ℕ :=
  (BiproportionalEvaluator.evaluate v ds ps rd rp).toOption.map fun M => colSum ds M p

end BiproportionalDefs

/-! ## Transferable vote selection (spec 4.3) -/

section TransferableVoteDefs

variable {α : Type} [DecidableEq α]

/-- The first continuing preference of a ranked ballot. -/
def firstActive (active : List α) (b : List α) : Option α :=
  b.find? (fun c => c ∈ active)

/-- The current tally of a continuing candidate: the weight of all
ballots whose first continuing preference is that candidate. -/
def stvTally (votes : List (List α × ℕ)) (active : List α) (c : α) : ℕ :=
  (votes.map fun p => if firstActive active p.1 = some c then p.2 else 0).sum

/-- Modelled from the spec: the Hare transfer of a surplus.  Whole
ballots equal in count to the surplus are transferred at full value;
they are selected deterministically by ballot order, walking the vote
entries assigned to the elected candidate from the front; the remaining
assigned ballots stay seated with the elected candidate and are
dropped. -/
def hareTransfer (asg : List α → Bool) : ℕ → List (List α × ℕ) → List (List α × ℕ)
  | _, [] => []
  | surplus, (b, nb) :: rest =>
    if asg b then (b, min surplus nb) :: hareTransfer asg (surplus - min surplus nb) rest
    else (b, nb) :: hareTransfer asg surplus rest

/-- Modelled from the spec: the Droop quota as a natural number. -/
def droopQuotaNat (total seats : ℕ) : ℕ := total / (seats + 1) + 1

/-- Modelled from the spec: the round loop of the transferable vote.
Each round tallies first continuing preferences; when every continuing
candidate can be seated they are all elected; a candidate meeting quota
is elected and its surplus Hare-transferred; otherwise the weakest
candidate is eliminated at full ballot value.  Exact ties at the
decisive boundaries are reported as ties. -/
def stvLoop (q : ℕ) : ℕ → List α → List (List α × ℕ) → List α → ℕ →
    Except (List α) (List α)
  | 0, _, _, _, _ => .error []
  | _ + 1, _, _, elected, 0 => .ok elected
  | fuel + 1, active, votes, elected, seatsLeft + 1 =>
    if active.length ≤ seatsLeft + 1 then .ok (elected ++ active)
    else
      match active.filter (fun c => q ≤ stvTally votes active c) with
      | [] =>
        match tiedMin (active.map fun c => (c, stvTally votes active c)) with
        | [loser] => stvLoop q fuel (active.erase loser) votes elected (seatsLeft + 1)
        | ls => .error ls
      | c :: cs =>
        match tiedMax ((c :: cs).map fun w => (w, stvTally votes active w)) with
        | [w] =>
          stvLoop q fuel (active.erase w)
            (hareTransfer (fun b => firstActive active b = some w)
              (stvTally votes active w - q) votes)
            (elected ++ [w]) seatsLeft
        | ws => .error ws

/-- The candidates appearing in the ranked votes, in ballot order. -/
def stvCandidates (votes : List (List α × ℕ)) : List α :=
  (votes.map Prod.fst).foldl (fun acc b => acc ++ b.filter (fun c => decide (c ∉ acc))) []

/-- Modelled from the spec: the transferable vote selector with the
Droop quota and the Hare transferer.  The seat count defaults to one
when not supplied. -/
def TransferableVoteSelector.evaluate (votes : List (List α × ℕ)) (seats : ℕ := 1) :
    Except (List α) (List α) :=
  stvLoop (droopQuotaNat ((votes.map Prod.snd).sum) seats)
    ((stvCandidates votes).length + 1) (stvCandidates votes) votes [] seats

end TransferableVoteDefs

/-! ## Condorcet selection (spec 4.4) -/

section CondorcetDefs

variable {α : Type} [DecidableEq α]

/-- Whether a ranked ballot prefers candidate a over candidate c: the
first of the two appearing on the ballot is a; an unranked candidate is
least preferred. -/
def prefersIn (b : List α) (a c : α) : Bool :=
  match b.find? (fun x => decide (x = a) || decide (x = c)) with
  | some x => decide (x = a) && decide (¬ a = c)
  | none => false

/-- The pairwise win matrix of a ranked vote profile: the weight of
ballots preferring the first candidate over the second. -/
def pairwinCounts (votes : List (List α × ℕ)) (a c : α) : ℕ :=
  (votes.map fun p => if prefersIn p.1 a c then p.2 else 0).sum

/-- The pairwise margin of the first candidate over the second. -/
def margin (d : α → α → ℕ) (a c : α) : ℤ := ((d a c : ℕ) : ℤ) - ((d c a : ℕ) : ℤ)

/-- Modelled from the spec: the Copeland score, pairwise wins minus
pairwise losses. -/
def copelandScore (cs : List α) (d : α → α → ℕ) (x : α) : ℤ :=
  ((cs.countP fun y => decide (0 < margin d x y) : ℕ) : ℤ)
    - ((cs.countP fun y => decide (margin d x y < 0) : ℕ) : ℤ)

/-- Modelled from the spec: Copeland selection, the options of maximal
Copeland score. -/
def Copeland.evaluate (cs : List α) (d : α → α → ℕ) : List α :=
  tiedMax (cs.map fun c => (c, copelandScore cs d c))

/-- Modelled from the spec: the worst pairwise defeat margin of a
candidate, at least zero. -/
def worstDefeat (cs : List α) (d : α → α → ℕ) (x : α) : ℤ :=
  (cs.map fun y => margin d y x).foldl max 0

/-- Modelled from the spec: Minimax selection, the options minimising
their worst pairwise defeat. -/
def Minimax.evaluate (cs : List α) (d : α → α → ℕ) : List α :=
  tiedMin (cs.map fun c => (c, worstDefeat cs d c))

/-- One relaxation step of the all-pairs strongest-path computation
through an intermediate candidate. -/
def fwUpdate (p : α → α → ℤ) (k : α) : α → α → ℤ :=
  fun a b => max (p a b) (min (p a k) (p k b))

/-- Modelled from the spec: the strongest-path strengths over the margin
graph, by all-pairs widest-path relaxation over the candidates. -/
def strongestPaths (cs : List α) (d : α → α → ℕ) : α → α → ℤ :=
  cs.foldl fwUpdate (margin d)

/-- Modelled from the spec: Schulze selection, the candidates beating
every other on strongest paths. -/
def Schulze.evaluate (cs : List α) (d : α → α → ℕ) : List α :=
  cs.filter fun x => cs.all fun y =>
    decide (y = x) || decide (strongestPaths cs d y x < strongestPaths cs d x y)

/-- All ordered candidate pairs. -/
def allPairs (cs : List α) : List (α × α) := cs.flatMap fun a => cs.map fun b => (a, b)

/-- The pairwise victories: ordered pairs with a positive margin. -/
def victories (cs : List α) (d : α → α → ℕ) : List (α × α) :=
  (allPairs cs).filter fun e => decide (0 < margin d e.1 e.2)

/-- The victories sorted by decreasing margin. -/
def sortedVictories (cs : List α) (d : α → α → ℕ) : List (α × α) :=
  List.insertionSort (fun e f => margin d f.1 f.2 ≤ margin d e.1 e.2) (victories cs d)

/-- Fuel-bounded reachability along locked edges. -/
def canReach (edges : List (α × α)) : ℕ → α → α → Bool
  | 0, a, b => decide (a = b)
  | fuel + 1, a, b =>
    decide (a = b) ||
      (edges.filter fun e => decide (e.1 = a)).any fun e => canReach edges fuel e.2 b

/-- Modelled from the spec: the ranked-pairs locking loop, adding each
victory in order unless it would close a cycle. -/
def lockIn (fuel : ℕ) : List (α × α) → List (α × α) → List (α × α)
  | [], locked => locked
  | e :: rest, locked =>
    if canReach locked fuel e.2 e.1 then lockIn fuel rest locked
    else lockIn fuel rest (locked ++ [e])

/-- Modelled from the spec: ranked-pairs selection, the candidates with
no incoming locked edge. -/
def RankedPairs.evaluate (cs : List α) (d : α → α → ℕ) : List α :=
  cs.filter fun x =>
    (lockIn cs.length (sortedVictories cs d) []).all fun e => decide (e.2 ≠ x)

/-- The agreement score of a full ranking: the total pairwise support of
every candidate over all candidates ranked below it. -/
def kemenyScore (d : α → α → ℕ) : List α → ℤ
  | [] => 0
  | a :: rest => (rest.map fun b => ((d a b : ℕ) : ℤ)).sum + kemenyScore d rest

/-- Modelled from the spec: Kemeny-Young selection, the heads of the
full rankings maximising total pairwise agreement. -/
def KemenyYoung.evaluate (cs : List α) (d : α → α → ℕ) : List α :=
  ((tiedMax ((cs.permutations').map fun r => (r, kemenyScore d r))).filterMap
    List.head?).dedup

end CondorcetDefs

/-! ## Composite evaluators (spec 4.5) -/

section CompositeDefs

variable {V ε β γ : Type} {α : Type} [DecidableEq α]

/-- Modelled from the spec: the fixed seat count wrapper, evaluating the
wrapped evaluator at its configured seat total. -/
def FixedSeatCount.evaluate (ev : V → ℕ → Except ε β) (n : ℕ) (votes : V) :
    Except ε β := ev votes n

/-- Modelled from the spec: the post-conversion wrapper, converting the
result of the wrapped evaluator and re-propagating its errors
unchanged. -/
def PostConverted.evaluate (ev : V → ℕ → Except ε β) (conv : β → γ)
    (votes : V) (n : ℕ) : Except ε γ := (ev votes n).map conv

/-- Modelled from the spec: the pre-conversion wrapper, converting the
votes before delegation. -/
def PreConverted.evaluate (conv : V → V) (ev : V → ℕ → Except ε β)
    (votes : V) (n : ℕ) : Except ε β := ev (conv votes) n

/-- Modelled from the spec: the tie-breaking wrapper, resolving a tie of
the wrapped evaluator through its explicitly attached policy. -/
def TieBreaking.evaluate (ev : V → ℕ → Except (List α) β)
    (policy : List α → β) (votes : V) (n : ℕ) : Except (List α) β :=
  match ev votes n with
  | .error t => .ok (policy t)
  | .ok r => .ok r

end CompositeDefs

end Votelib

/-! # Supporting lemmas -/

namespace Votelib

theorem ratDiv_eq_div (x y : ℚ) : ratDiv x y = x / y := by
  rcases eq_or_ne y 0 with rfl | hy
  · simp [ratDiv]
  · have hxd : ((x.den : ℚ)) ≠ 0 := by
      exact_mod_cast x.den_nz
    have hyd : ((y.den : ℚ)) ≠ 0 := by
      exact_mod_cast y.den_nz
    have hyn : ((y.num : ℚ)) ≠ 0 := by
      exact_mod_cast Rat.num_ne_zero.mpr hy
    rw [ratDiv, Rat.divInt_eq_div]
    conv_rhs => rw [← Rat.num_div_den x, ← Rat.num_div_den y]
    push_cast
    field_simp

theorem ratMul_eq_mul (x y : ℚ) : ratMul x y = x * y := by
  have hxd : ((x.den : ℚ)) ≠ 0 := by
    exact_mod_cast x.den_nz
  have hyd : ((y.den : ℚ)) ≠ 0 := by
    exact_mod_cast y.den_nz
  rw [ratMul, Rat.divInt_eq_div]
  conv_rhs => rw [← Rat.num_div_den x, ← Rat.num_div_den y]
  push_cast
  field_simp

theorem fract_eq_self_sub_floor (x : ℚ) : fract x = x - ⌊x⌋ := by
  have hxd : ((x.den : ℚ)) ≠ 0 := by
    exact_mod_cast x.den_nz
  rw [fract, Rat.divInt_eq_div]
  push_cast
  rw [sub_div, mul_div_assoc, div_self hxd, mul_one, Rat.num_div_den]

theorem fract_eq_int_fract (x : ℚ) : fract x = Int.fract x := by
  rw [fract_eq_self_sub_floor, Int.fract]

theorem fract_nonneg' (x : ℚ) : 0 ≤ fract x := by
  rw [fract_eq_int_fract]; exact Int.fract_nonneg x

section TiedLemmas

variable {α : Type} {β : Type} [DecidableEq α] [DecidableEq β] [LinearOrder β]

theorem max?_eq_some_iff_linear {l : List β} {m : β} :
    l.max? = some m ↔ m ∈ l ∧ ∀ b ∈ l, b ≤ m := by
  haveI : Std.Antisymm ((· : β) ≤ ·) := ⟨fun h₁ h₂ => le_antisymm h₁ h₂⟩
  exact List.max?_eq_some_iff (fun a => le_refl a) (fun a b => max_choice a b)
    (fun _ _ _ => max_le_iff)

theorem min?_eq_some_iff_linear {l : List β} {m : β} :
    l.min? = some m ↔ m ∈ l ∧ ∀ b ∈ l, m ≤ b := by
  haveI : Std.Antisymm ((· : β) ≤ ·) := ⟨fun h₁ h₂ => le_antisymm h₁ h₂⟩
  exact List.min?_eq_some_iff (fun a => le_refl a) (fun a b => min_choice a b)
    (fun _ _ _ => le_min_iff)

/-- A nodup list filtered by a predicate holding exactly at one member is
that single member. -/
theorem filter_eq_single_of {l : List α} {x : α} (p : α → Bool) (hnd : l.Nodup)
    (hx : x ∈ l) (hpx : p x = true) (hother : ∀ y ∈ l, y ≠ x → p y = false) :
    l.filter p = [x] := by
  induction l with
  | nil => cases hx
  | cons a l ih =>
    rcases List.nodup_cons.mp hnd with ⟨hal, hndl⟩
    by_cases hax : a = x
    · subst hax
      have hfl : l.filter p = [] := by
        apply List.filter_eq_nil_iff.mpr
        intro b hb
        have hba : b ≠ a := fun h => hal (h ▸ hb)
        simp [hother b (List.mem_cons_of_mem _ hb) hba]
      simp [List.filter_cons, hpx, hfl]
    · have hxl : x ∈ l := by
        rcases List.mem_cons.mp hx with h | h
        · exact absurd h.symm hax
        · exact h
      have hpa : p a = false := hother a (List.mem_cons_self a l) hax
      rw [List.filter_cons_of_neg (by simp [hpa])]
      exact ih hndl hxl (fun y hy hyx => hother y (List.mem_cons_of_mem _ hy) hyx)

/-- If a single option strictly dominates all others, it is the unique
tied maximum. -/
theorem tiedMax_map_eq_single (f : α → β) {cs : List α} {x : α} (hnd : cs.Nodup)
    (hx : x ∈ cs) (hlt : ∀ y ∈ cs, y ≠ x → f y < f x) :
    tiedMax (cs.map fun c => (c, f c)) = [x] := by
  have hmax : ((cs.map fun c => (c, f c)).map Prod.snd).max? = some (f x) := by
    rw [max?_eq_some_iff_linear]
    constructor
    · simp only [List.map_map, List.mem_map]
      exact ⟨x, hx, rfl⟩
    · intro b hb
      simp only [List.map_map, List.mem_map] at hb
      obtain ⟨y, hy, rfl⟩ := hb
      rcases eq_or_ne y x with rfl | hyx
      · exact le_refl _
      · exact le_of_lt (hlt y hy hyx)
  unfold tiedMax
  rw [hmax]
  show ((cs.map fun c => (c, f c)).filter fun p => p.2 = f x).map Prod.fst = [x]
  rw [List.filter_map, List.map_map]
  have hfil : cs.filter ((fun (p : α × β) => decide (p.2 = f x)) ∘ fun c => (c, f c)) = [x] := by
    apply filter_eq_single_of _ hnd hx
    · simp
    · intro y hy hyx
      simp only [Function.comp_apply, decide_eq_false_iff_not]
      exact ne_of_lt (hlt y hy hyx)
  rw [hfil]
  simp

/-- If a single option is strictly below all others, it is the unique
tied minimum. -/
theorem tiedMin_map_eq_single (f : α → β) {cs : List α} {x : α} (hnd : cs.Nodup)
    (hx : x ∈ cs) (hlt : ∀ y ∈ cs, y ≠ x → f x < f y) :
    tiedMin (cs.map fun c => (c, f c)) = [x] := by
  have hmin : ((cs.map fun c => (c, f c)).map Prod.snd).min? = some (f x) := by
    rw [min?_eq_some_iff_linear]
    constructor
    · simp only [List.map_map, List.mem_map]
      exact ⟨x, hx, rfl⟩
    · intro b hb
      simp only [List.map_map, List.mem_map] at hb
      obtain ⟨y, hy, rfl⟩ := hb
      rcases eq_or_ne y x with rfl | hyx
      · exact le_refl _
      · exact le_of_lt (hlt y hy hyx)
  unfold tiedMin
  rw [hmin]
  show ((cs.map fun c => (c, f c)).filter fun p => p.2 = f x).map Prod.fst = [x]
  rw [List.filter_map, List.map_map]
  have hfil : cs.filter ((fun (p : α × β) => decide (p.2 = f x)) ∘ fun c => (c, f c)) = [x] := by
    apply filter_eq_single_of _ hnd hx
    · simp
    · intro y hy hyx
      simp only [Function.comp_apply, decide_eq_false_iff_not]
      exact (ne_of_lt (hlt y hy hyx)).symm
  rw [hfil]
  simp

/-- Any member of the tied maximum achieves a value maximal over the list. -/
theorem mem_tiedMax {l : List (α × β)} {x : α} (hx : x ∈ tiedMax l) :
    ∃ v, (x, v) ∈ l ∧ ∀ p ∈ l, p.2 ≤ v := by
  rw [tiedMax] at hx
  cases hmax : (l.map Prod.snd).max? with
  | none => rw [hmax] at hx; cases hx
  | some m =>
    rw [hmax] at hx
    obtain ⟨⟨a, v⟩, hmem, rfl⟩ := List.mem_map.mp hx
    have hfil := List.mem_filter.mp hmem
    have hvm : v = m := by simpa using hfil.2
    refine ⟨v, hfil.1, ?_⟩
    intro p hp
    have := (max?_eq_some_iff_linear.mp hmax).2 p.2 (List.mem_map.mpr ⟨p, hp, rfl⟩)
    rw [hvm]
    exact this

/-- The tied maximum of a nonempty list is nonempty. -/
theorem tiedMax_ne_nil {l : List (α × β)} (hl : l ≠ []) : tiedMax l ≠ [] := by
  rw [tiedMax]
  cases hmax : (l.map Prod.snd).max? with
  | none =>
    rw [List.max?_eq_none_iff] at hmax
    exact absurd (List.map_eq_nil_iff.mp hmax) hl
  | some m =>
    have hm := (max?_eq_some_iff_linear.mp hmax).1
    obtain ⟨p, hp, hpm⟩ := List.mem_map.mp hm
    intro hcon
    have : p ∈ l.filter (fun p => p.2 = m) := List.mem_filter.mpr ⟨hp, by simp [hpm]⟩
    rw [List.map_eq_nil_iff.mp hcon] at this
    cases this

end TiedLemmas

section ListHelpers

variable {α : Type} [DecidableEq α]

/-- Splitting a sum of base seats plus an indicator award. -/
theorem sum_map_add_ite (l : List (α × ℕ)) (f : ℚ → ℕ → ℕ) (q : ℚ) (sel : List α) :
    ((l.map fun p => (p.1, f q p.2 + if p.1 ∈ sel then 1 else 0)).map Prod.snd).sum
      = (l.map fun p => f q p.2).sum + l.countP (fun p => decide (p.1 ∈ sel)) := by
  induction l with
  | nil => simp
  | cons a t ih =>
    simp only [List.map_cons, List.sum_cons, List.countP_cons, ih]
    by_cases h : a.1 ∈ sel <;> simp [h] <;> omega

/-- Counting members of a nodup selection inside a nodup key list. -/
theorem countP_mem_eq_length {keys sel : List α} (hknd : keys.Nodup)
    (hsnd : sel.Nodup) (hsub : ∀ x ∈ sel, x ∈ keys) :
    keys.countP (fun c => decide (c ∈ sel)) = sel.length := by
  rw [List.countP_eq_length_filter]
  have hperm : List.Perm (keys.filter (fun c => decide (c ∈ sel))) sel := by
    rw [List.perm_ext_iff_of_nodup (hknd.filter _) hsnd]
    intro a
    simp only [List.mem_filter, decide_eq_true_eq]
    constructor
    · rintro ⟨_, h⟩
      exact h
    · intro h
      exact ⟨hsub a h, h⟩
  exact hperm.length_eq

/-- In a list with nodup keys, a key determines its value. -/
theorem mem_eq_of_nodup_keys {l : List (α × ℕ)} (h : (l.map Prod.fst).Nodup)
    {a : α} {b c : ℕ} (h1 : (a, b) ∈ l) (h2 : (a, c) ∈ l) : b = c := by
  induction l with
  | nil => cases h1
  | cons p t ih =>
    rw [List.map_cons, List.nodup_cons] at h
    rcases List.mem_cons.mp h1 with hb | hb <;> rcases List.mem_cons.mp h2 with hc | hc
    · rw [← hb] at hc
      exact (Prod.mk.injEq _ _ _ _).mp hc.symm |>.2
    · exfalso
      apply h.1
      rw [← hb]
      exact List.mem_map.mpr ⟨(a, c), hc, rfl⟩
    · exfalso
      apply h.1
      rw [← hc]
      exact List.mem_map.mpr ⟨(a, b), hb, rfl⟩
    · exact ih h.2 hb hc

/-- A sum of rational values, each divided by a common quota. -/
theorem sum_map_div (l : List (α × ℕ)) (q : ℚ) :
    (l.map fun p => ((p.2 : ℕ) : ℚ) / q).sum = (((l.map Prod.snd).sum : ℕ) : ℚ) / q := by
  induction l with
  | nil => simp
  | cons a t ih =>
    simp only [List.map_cons, List.sum_cons, ih]
    push_cast
    rw [add_div]

/-- A count of positive entries as a rational indicator sum. -/
theorem countP_eq_sum_indicator (l : List (α × ℕ)) (g : ℕ → ℚ) :
    ((l.countP fun p => decide (0 < g p.2) : ℕ) : ℚ)
      = (l.map fun p => if 0 < g p.2 then (1 : ℚ) else 0).sum := by
  induction l with
  | nil => simp
  | cons a t ih =>
    by_cases h : 0 < g a.2 <;>
      simp [List.countP_cons, h, ih] <;> push_cast <;> ring

end ListHelpers

section LargestRemainderLemmas

variable {α : Type} [DecidableEq α]

theorem lrFrac_nonneg (q : ℚ) (v : ℕ) : 0 ≤ lrFrac q v := fract_nonneg' _

theorem lrSorted_perm (q : ℚ) (votes : List (α × ℕ)) :
    List.Perm (lrSorted q votes) votes :=
  List.perm_insertionSort _ votes

theorem lrSorted_sorted (q : ℚ) (votes : List (α × ℕ)) :
    (lrSorted q votes).Sorted (fun p₁ p₂ => lrFrac q p₂.2 ≤ lrFrac q p₁.2) := by
  haveI : IsTotal (α × ℕ) (fun p₁ p₂ => lrFrac q p₂.2 ≤ lrFrac q p₁.2) :=
    ⟨fun a b => le_total _ _⟩
  haveI : IsTrans (α × ℕ) (fun p₁ p₂ => lrFrac q p₂.2 ≤ lrFrac q p₁.2) :=
    ⟨fun _ _ _ h₁ h₂ => le_trans h₂ h₁⟩
  exact List.sorted_insertionSort _ votes

theorem lrWinners_nodup (q : ℚ) {votes : List (α × ℕ)} (k : ℕ)
    (hnd : (votes.map Prod.fst).Nodup) : (lrWinners q votes k).Nodup := by
  have hperm : List.Perm ((lrSorted q votes).map Prod.fst) (votes.map Prod.fst) :=
    (lrSorted_perm q votes).map Prod.fst
  have hnds : ((lrSorted q votes).map Prod.fst).Nodup := hperm.nodup_iff.mpr hnd
  have hw : lrWinners q votes k = ((lrSorted q votes).map Prod.fst).take k := by
    rw [lrWinners, List.map_take]
  rw [hw]
  exact List.Nodup.sublist (List.take_sublist k _) hnds

theorem lrWinners_subset (q : ℚ) {votes : List (α × ℕ)} (k : ℕ) :
    ∀ x ∈ lrWinners q votes k, x ∈ votes.map Prod.fst := by
  intro x hx
  rw [lrWinners] at hx
  obtain ⟨p, hp, rfl⟩ := List.mem_map.mp hx
  have : p ∈ lrSorted q votes := List.mem_of_mem_take hp
  exact List.mem_map.mpr ⟨p, (lrSorted_perm q votes).mem_iff.mp this, rfl⟩

theorem lrWinners_length (q : ℚ) {votes : List (α × ℕ)} {k : ℕ}
    (hk : k ≤ votes.length) : (lrWinners q votes k).length = k := by
  rw [lrWinners, List.length_map, List.length_take]
  have : (lrSorted q votes).length = votes.length := (lrSorted_perm q votes).length_eq
  omega

/-- The total of a largest-remainder award: the first-pass total plus
the number of remainder seats. -/
theorem lrAward_total (q : ℚ) {votes : List (α × ℕ)} {k : ℕ}
    (hnd : (votes.map Prod.fst).Nodup) (hk : k ≤ votes.length) :
    distTotal (lrAward q votes k) = lrFloorSum q votes + k := by
  rw [distTotal, lrAward, sum_map_add_ite, lrFloorSum]
  congr 1
  have : votes.countP (fun p => decide (p.1 ∈ lrWinners q votes k))
      = (votes.map Prod.fst).countP (fun c => decide (c ∈ lrWinners q votes k)) := by
    rw [List.countP_map]
    rfl
  rw [this, countP_mem_eq_length hnd (lrWinners_nodup q k hnd) (lrWinners_subset q k)]
  exact lrWinners_length q hk

end LargestRemainderLemmas

/-- Casting a natural list sum into the rationals. -/
theorem natCast_list_sum (l : List ℕ) : ((l.sum : ℕ) : ℚ) = (l.map fun v => ((v : ℕ) : ℚ)).sum := by
  induction l with
  | nil => simp
  | cons a t ih => simp [ih]

/-- Pointwise splitting of a rational list sum. -/
theorem sum_map_add_pointwise {γ : Type} (l : List γ) (f g : γ → ℚ) :
    (l.map fun x => f x + g x).sum = (l.map f).sum + (l.map g).sum := by
  induction l with
  | nil => simp
  | cons a t ih => simp [ih]; ring


section LargestRemainderMain

variable {α : Type} [DecidableEq α]

/-- In a list sorted by decreasing remainder, when at least k entries
have a positive remainder, so do all of the first k. -/
theorem lr_sorted_take_pos (q : ℚ) :
    ∀ (l : List (α × ℕ)), l.Sorted (fun p₁ p₂ => lrFrac q p₂.2 ≤ lrFrac q p₁.2) →
      ∀ k, k ≤ l.countP (fun p => decide (0 < lrFrac q p.2)) →
        ∀ p ∈ l.take k, 0 < lrFrac q p.2 := by
  intro l
  induction l with
  | nil =>
    intro _ k _ a ha
    simp at ha
  | cons b t ih =>
    intro hsort k hk a ha
    rcases List.sorted_cons.mp hsort with ⟨hb, hst⟩
    cases k with
    | zero => simp at ha
    | succ k' =>
      have hbpos : 0 < lrFrac q b.2 := by
        by_contra hcon
        push_neg at hcon
        have hb0 : lrFrac q b.2 = 0 := le_antisymm hcon (lrFrac_nonneg q b.2)
        have hzero : (b :: t).countP (fun p => decide (0 < lrFrac q p.2)) = 0 := by
          rw [List.countP_eq_zero]
          intro x hx
          rcases List.mem_cons.mp hx with rfl | hxt
          · simp [hb0]
          · have hx0 : lrFrac q x.2 = 0 :=
              le_antisymm (hb0 ▸ hb x hxt) (lrFrac_nonneg q x.2)
            simp [hx0]
        omega
      rw [List.take_succ_cons] at ha
      rcases List.mem_cons.mp ha with rfl | hat
      · exact hbpos
      · have hk' : k' ≤ t.countP (fun p => decide (0 < lrFrac q p.2)) := by
          have := List.countP_cons (fun p => decide (0 < lrFrac q p.2)) b t
          simp only [hbpos, decide_eq_true_eq, if_pos] at this
          omega
        exact ih hst k' hk' a hat

theorem lrFloor_eq (q : ℚ) (v : ℕ) : lrFloor q v = (⌊((v : ℕ) : ℚ) / q⌋).toNat := by
  rw [lrFloor, ratDiv_eq_div]

theorem lrFrac_eq (q : ℚ) (v : ℕ) : lrFrac q v = Int.fract (((v : ℕ) : ℚ) / q) := by
  rw [lrFrac, fract_eq_int_fract, ratDiv_eq_div]

/-- The number of remainder seats never exceeds the number of options
with a positive remainder, whenever n seats of quota fit in the votes. -/
theorem lr_k_le_pos_count {votes : List (α × ℕ)} {n : ℕ} {q : ℚ}
    (hq : 0 < q) (hql : (n : ℚ) * q ≤ (((votes.map Prod.snd).sum : ℕ) : ℚ))
    (hfs : lrFloorSum q votes ≤ n) :
    n - lrFloorSum q votes ≤ votes.countP (fun p => decide (0 < lrFrac q p.2)) := by
  set cnt := votes.countP (fun p => decide (0 < lrFrac q p.2)) with hcnt
  have hsum : (n : ℚ) ≤ (votes.map fun p => ((p.2 : ℕ) : ℚ) / q).sum := by
    rw [sum_map_div]
    rw [le_div_iff hq]
    exact hql
  have hsplit : ∀ p : α × ℕ, ((p.2 : ℕ) : ℚ) / q
      = ((lrFloor q p.2 : ℕ) : ℚ) + lrFrac q p.2 := by
    intro p
    rw [lrFloor_eq, lrFrac_eq, Int.fract]
    have hnn : (0 : ℚ) ≤ ((p.2 : ℕ) : ℚ) / q :=
      div_nonneg (by positivity) (le_of_lt hq)
    have : ((⌊((p.2 : ℕ) : ℚ) / q⌋.toNat : ℕ) : ℚ) = ((⌊((p.2 : ℕ) : ℚ) / q⌋ : ℤ) : ℚ) := by
      have := Int.toNat_of_nonneg (Int.floor_nonneg.mpr hnn)
      exact_mod_cast congrArg (fun z : ℤ => ((z : ℤ) : ℚ)) this
    rw [this]
    ring
  have hsum2 : (votes.map fun p => ((p.2 : ℕ) : ℚ) / q).sum
      = ((lrFloorSum q votes : ℕ) : ℚ) + (votes.map fun p => lrFrac q p.2).sum := by
    have h1 : (votes.map fun p => ((p.2 : ℕ) : ℚ) / q).sum
        = (votes.map fun p => ((lrFloor q p.2 : ℕ) : ℚ) + lrFrac q p.2).sum := by
      congr 1
      exact List.map_congr_left (fun p _ => hsplit p)
    rw [h1, sum_map_add_pointwise]
    congr 1
    rw [lrFloorSum, natCast_list_sum, List.map_map]
    rfl
  have hfracle : (votes.map fun p => lrFrac q p.2).sum ≤ ((cnt : ℕ) : ℚ) := by
    rw [hcnt, countP_eq_sum_indicator votes (fun v => lrFrac q v)]
    apply List.sum_le_sum
    intro p _
    by_cases hp : 0 < lrFrac q p.2
    · simp only [hp, if_pos]
      rw [lrFrac_eq]
      exact le_of_lt (Int.fract_lt_one _)
    · simp only [hp, if_neg, if_false]
      push_neg at hp
      exact hp
  have : (n : ℚ) ≤ ((lrFloorSum q votes : ℕ) : ℚ) + ((cnt : ℕ) : ℚ) := by
    calc (n : ℚ) ≤ (votes.map fun p => ((p.2 : ℕ) : ℚ) / q).sum := hsum
    _ = ((lrFloorSum q votes : ℕ) : ℚ) + (votes.map fun p => lrFrac q p.2).sum := hsum2
    _ ≤ ((lrFloorSum q votes : ℕ) : ℚ) + ((cnt : ℕ) : ℚ) := by
        exact add_le_add_left hfracle _
  have hn : n ≤ lrFloorSum q votes + cnt := by
    exact_mod_cast this
  omega

theorem lrFloor_le_ceil {q : ℚ} (hq : 0 < q) (v : ℕ) :
    ((lrFloor q v : ℕ) : ℤ) ≤ ⌈((v : ℕ) : ℚ) / q⌉ := by
  rw [lrFloor_eq]
  have hnn : (0 : ℚ) ≤ ((v : ℕ) : ℚ) / q := div_nonneg (by positivity) (le_of_lt hq)
  rw [Int.toNat_of_nonneg (Int.floor_nonneg.mpr hnn)]
  exact Int.floor_le_ceil _

theorem lrFloor_add_one_le_ceil {q : ℚ} (hq : 0 < q) {v : ℕ} (hfr : 0 < lrFrac q v) :
    ((lrFloor q v : ℕ) : ℤ) + 1 ≤ ⌈((v : ℕ) : ℚ) / q⌉ := by
  rw [lrFloor_eq]
  have hnn : (0 : ℚ) ≤ ((v : ℕ) : ℚ) / q := div_nonneg (by positivity) (le_of_lt hq)
  rw [Int.toNat_of_nonneg (Int.floor_nonneg.mpr hnn)]
  have hlt : (⌊((v : ℕ) : ℚ) / q⌋ : ℚ) < ((v : ℕ) : ℚ) / q := by
    rw [lrFrac_eq, Int.fract] at hfr
    linarith
  have hle : ((v : ℕ) : ℚ) / q ≤ (⌈((v : ℕ) : ℚ) / q⌉ : ℚ) := Int.le_ceil _
  have : (⌊((v : ℕ) : ℚ) / q⌋ : ℚ) < (⌈((v : ℕ) : ℚ) / q⌉ : ℚ) := lt_of_lt_of_le hlt hle
  have hzlt : ⌊((v : ℕ) : ℚ) / q⌋ < ⌈((v : ℕ) : ℚ) / q⌉ := by
    exact_mod_cast this
  omega

/-- A successful evaluation certifies no overaward and is the remainder
award at the uncovered seat count. -/
theorem lr_evaluate_ok {quotaF : ℕ → ℕ → ℚ} {votes : List (α × ℕ)} {n : ℕ}
    {res : List (α × ℕ)}
    (hok : LargestRemainder.evaluate quotaF votes n = .ok res) :
    lrFloorSum (lrQuota quotaF votes n) votes ≤ n ∧
      res = lrAward (lrQuota quotaF votes n) votes
        (n - lrFloorSum (lrQuota quotaF votes n) votes) := by
  rw [LargestRemainder.evaluate] at hok
  split at hok
  · cases hok
  · exact ⟨by omega, (Except.ok.inj hok).symm⟩

/-- Awarded options among the first k by remainder have a positive
remainder when at least k options do. -/
theorem lr_winner_frac_pos {q : ℚ} {votes : List (α × ℕ)} {k : ℕ}
    (hnd : (votes.map Prod.fst).Nodup)
    (hcnt : k ≤ votes.countP (fun p => decide (0 < lrFrac q p.2)))
    {p : α × ℕ} (hp : p ∈ votes) (hw : p.1 ∈ lrWinners q votes k) :
    0 < lrFrac q p.2 := by
  rw [lrWinners] at hw
  obtain ⟨p', hp', hfst⟩ := List.mem_map.mp hw
  have hp'sorted : p' ∈ lrSorted q votes := List.mem_of_mem_take hp'
  have hp'votes : p' ∈ votes := (lrSorted_perm q votes).mem_iff.mp hp'sorted
  have hcnt' : k ≤ (lrSorted q votes).countP (fun p => decide (0 < lrFrac q p.2)) := by
    rw [(lrSorted_perm q votes).countP_eq]
    exact hcnt
  have hpos := lr_sorted_take_pos q (lrSorted q votes) (lrSorted_sorted q votes) k hcnt' p' hp'
  have hmem1 : (p.1, p'.2) ∈ votes := by
    rw [← hfst]
    have : (p'.1, p'.2) = p' := rfl
    rw [this]
    exact hp'votes
  have hmem2 : (p.1, p.2) ∈ votes := by
    have : (p.1, p.2) = p := rfl
    rw [this]
    exact hp
  have heq : p'.2 = p.2 := mem_eq_of_nodup_keys hnd hmem1 hmem2
  rw [← heq]
  exact hpos

/-- A successful largest-remainder evaluation distributes exactly the
requested number of seats. -/
theorem lr_total_of_ok {quotaF : ℕ → ℕ → ℚ} {votes : List (α × ℕ)} {n : ℕ}
    {res : List (α × ℕ)}
    (hnd : (votes.map Prod.fst).Nodup)
    (hq : 0 < lrQuota quotaF votes n)
    (hql : (n : ℚ) * lrQuota quotaF votes n ≤ (((votes.map Prod.snd).sum : ℕ) : ℚ))
    (hok : LargestRemainder.evaluate quotaF votes n = .ok res) :
    distTotal res = n := by
  obtain ⟨hfs, rfl⟩ := lr_evaluate_ok hok
  have hkpos := lr_k_le_pos_count hq hql hfs
  have hklen : n - lrFloorSum (lrQuota quotaF votes n) votes ≤ votes.length :=
    le_trans hkpos (le_trans (List.countP_le_length _) (le_refl _))
  rw [lrAward_total _ hnd hklen]
  omega

/-- No option of a successful largest-remainder evaluation exceeds the
ceiling of its votes over the quota. -/
theorem lr_ceil_of_ok {quotaF : ℕ → ℕ → ℚ} {votes : List (α × ℕ)} {n : ℕ}
    {res : List (α × ℕ)}
    (hnd : (votes.map Prod.fst).Nodup)
    (hq : 0 < lrQuota quotaF votes n)
    (hql : (n : ℚ) * lrQuota quotaF votes n ≤ (((votes.map Prod.snd).sum : ℕ) : ℚ))
    (hok : LargestRemainder.evaluate quotaF votes n = .ok res) :
    ∀ pr ∈ res, ∀ v, (pr.1, v) ∈ votes →
      ((pr.2 : ℕ) : ℤ) ≤ ⌈((v : ℕ) : ℚ) / lrQuota quotaF votes n⌉ := by
  obtain ⟨hfs, rfl⟩ := lr_evaluate_ok hok
  have hkpos := lr_k_le_pos_count hq hql hfs
  intro pr hpr v hv
  rw [lrAward] at hpr
  obtain ⟨p, hp, rfl⟩ := List.mem_map.mp hpr
  have hmemp : (p.1, p.2) ∈ votes := by
    have : (p.1, p.2) = p := rfl
    rw [this]
    exact hp
  have hveq : v = p.2 := mem_eq_of_nodup_keys hnd hv hmemp
  subst hveq
  by_cases hw : p.1 ∈ lrWinners (lrQuota quotaF votes n) votes
      (n - lrFloorSum (lrQuota quotaF votes n) votes)
  · have hfr : 0 < lrFrac (lrQuota quotaF votes n) p.2 :=
      lr_winner_frac_pos hnd hkpos hp hw
    have := lrFloor_add_one_le_ceil hq hfr
    simp only [hw, if_pos]
    push_cast
    push_cast at this
    linarith
  · have := lrFloor_le_ceil hq (v := p.2)
    simp only [hw, if_neg, if_false]
    push_cast
    push_cast at this
    linarith

end LargestRemainderMain

section HighestAveragesLemmas

variable {α : Type} {β : Type} [DecidableEq α] [DecidableEq β] [LinearOrder β]

/-- Inversion of a singleton tied maximum: the single option strictly
dominates all others. -/
theorem tiedMax_map_single_inv (f : α → β) {cs : List α} {x : α}
    (h : tiedMax (cs.map fun c => (c, f c)) = [x]) :
    x ∈ cs ∧ ∀ y ∈ cs, y ≠ x → f y < f x := by
  unfold tiedMax at h
  cases hmax : ((cs.map fun c => (c, f c)).map Prod.snd).max? with
  | none => rw [hmax] at h; cases h
  | some m =>
    simp only [hmax] at h
    have hub : ∀ y ∈ cs, f y ≤ m := by
      intro y hy
      exact (max?_eq_some_iff_linear.mp hmax).2 (f y)
        (by simp only [List.map_map, List.mem_map]; exact ⟨y, hy, rfl⟩)
    rw [List.filter_map, List.map_map] at h
    have hid : (Prod.fst ∘ fun c => (c, f c)) = fun c : α => c := rfl
    rw [hid, List.map_id'] at h
    have hxmem : x ∈ cs.filter ((fun p : α × β => decide (p.2 = m)) ∘ fun c => (c, f c)) := by
      rw [h]
      exact List.mem_cons_self x []
    have hxcs : x ∈ cs := (List.mem_filter.mp hxmem).1
    have hxm : f x = m := by
      have := (List.mem_filter.mp hxmem).2
      simpa using this
    refine ⟨hxcs, ?_⟩
    intro y hy hyx
    rcases lt_or_eq_of_le (hub y hy) with hlt | heq
    · rw [hxm]
      exact hlt
    · exfalso
      have : y ∈ cs.filter ((fun p : α × β => decide (p.2 = m)) ∘ fun c => (c, f c)) :=
        List.mem_filter.mpr ⟨hy, by simpa using heq⟩
      rw [h] at this
      exact hyx (by simpa using this)

/-- Inversion of a successful highest-averages round. -/
theorem haRound_ok_inv {d : ℕ → ℚ} {cs : List α} {v seats : α → ℕ} {w : α}
    (h : haRound d cs v seats = .ok w) :
    w ∈ cs ∧ ∀ y ∈ cs, y ≠ w →
      haQuotient d (v y) (seats y) < haQuotient d (v w) (seats w) := by
  unfold haRound at h
  cases htm : tiedMax (cs.map fun c => (c, haQuotient d (v c) (seats c))) with
  | nil => rw [htm] at h; cases h
  | cons x xs =>
    cases xs with
    | nil =>
      rw [htm] at h
      have hxw : x = w := Except.ok.inj h
      subst hxw
      exact tiedMax_map_single_inv (fun c => haQuotient d (v c) (seats c)) htm
    | cons y ys => rw [htm] at h; cases h

/-- A strictly dominating option wins the round. -/
theorem haRound_ok_of_max {d : ℕ → ℚ} {cs : List α} {v seats : α → ℕ} {w : α}
    (hnd : cs.Nodup) (hw : w ∈ cs)
    (hdom : ∀ y ∈ cs, y ≠ w →
      haQuotient d (v y) (seats y) < haQuotient d (v w) (seats w)) :
    haRound d cs v seats = .ok w := by
  unfold haRound
  rw [tiedMax_map_eq_single (fun c => haQuotient d (v c) (seats c)) hnd hw hdom]

/-- Inversion of one step of the highest-averages run. -/
theorem haRun_succ_inv {d : ℕ → ℚ} {cs : List α} {v : α → ℕ} {n : ℕ}
    {s' : α → ℕ} (h : haRun d cs v (n + 1) = .ok s') :
    ∃ s w, haRun d cs v n = .ok s ∧ haRound d cs v s = .ok w ∧
      s' = fun c => if c = w then s c + 1 else s c := by
  rw [haRun] at h
  cases hrun : haRun d cs v n with
  | error e => simp only [hrun] at h; cases h
  | ok s =>
    simp only [hrun] at h
    cases hround : haRound d cs v s with
    | error e => simp only [hround] at h; cases h
    | ok w =>
      simp only [hround] at h
      exact ⟨s, w, rfl, hround, (Except.ok.inj h).symm⟩

/-- The zero-round run yields the zero seat function. -/
theorem haRun_zero_inv {d : ℕ → ℚ} {cs : List α} {v : α → ℕ} {s : α → ℕ}
    (h : haRun d cs v 0 = .ok s) : s = fun _ => 0 :=
  (Except.ok.inj h).symm

/-- Bumping the seat count of one member of a nodup list raises the seat
total by exactly one. -/
theorem sum_update_add_one {cs : List α} {w : α} (s : α → ℕ)
    (hnd : cs.Nodup) (hw : w ∈ cs) :
    (cs.map fun c => if c = w then s c + 1 else s c).sum = (cs.map s).sum + 1 := by
  induction cs with
  | nil => cases hw
  | cons a t ih =>
    rcases List.nodup_cons.mp hnd with ⟨hat, hndt⟩
    rcases List.mem_cons.mp hw with heq | hwt
    · subst heq
      have hmap : t.map (fun c => if c = w then s c + 1 else s c) = t.map s := by
        apply List.map_congr_left
        intro c hc
        have hcw : c ≠ w := fun hc' => hat (hc' ▸ hc)
        simp [hcw]
      simp only [List.map_cons, List.sum_cons, hmap, if_true, eq_self_iff_true]
      omega
    · have haw : a ≠ w := fun h => hat (h ▸ hwt)
      simp only [List.map_cons, List.sum_cons, if_neg haw, ih hndt hwt]
      omega

/-- A successful highest-averages run of n rounds awards exactly n
seats over the options. -/
theorem haRun_total {d : ℕ → ℚ} {cs : List α} {v : α → ℕ}
    (hnd : cs.Nodup) :
    ∀ {n : ℕ} {s : α → ℕ}, haRun d cs v n = .ok s → (cs.map s).sum = n := by
  intro n
  induction n with
  | zero =>
    intro s h
    rw [haRun_zero_inv h]
    simp
  | succ n ih =>
    intro s' h
    obtain ⟨s, w, hrun, hround, rfl⟩ := haRun_succ_inv h
    have hw : w ∈ cs := (haRound_ok_inv hround).1
    rw [sum_update_add_one s hnd hw, ih hrun]

/-- A run never awards an option more seats than its round count. -/
theorem haRun_le {d : ℕ → ℚ} {cs : List α} {v : α → ℕ} :
    ∀ {n : ℕ} {s : α → ℕ}, haRun d cs v n = .ok s → ∀ c, s c ≤ n := by
  intro n
  induction n with
  | zero =>
    intro s h c
    rw [haRun_zero_inv h]
  | succ n ih =>
    intro s' h c
    obtain ⟨s, w, hrun, _, rfl⟩ := haRun_succ_inv h
    show (if c = w then s c + 1 else s c) ≤ n + 1
    have := ih hrun c
    by_cases hc : c = w
    · rw [if_pos hc]
      omega
    · rw [if_neg hc]
      omega

/-- The run only reads the votes of the listed options. -/
theorem haRun_congr {d : ℕ → ℚ} {cs : List α} {v v' : α → ℕ}
    (hv : ∀ c ∈ cs, v c = v' c) :
    ∀ n, haRun d cs v n = haRun d cs v' n := by
  intro n
  induction n with
  | zero => rfl
  | succ n ih =>
    rw [haRun, haRun, ih]
    cases hrun : haRun d cs v' n with
    | error e => simp only [hrun]
    | ok s =>
      simp only [hrun]
      have hround : haRound d cs v s = haRound d cs v' s := by
        unfold haRound
        have hmapeq : (cs.map fun c => (c, haQuotient d (v c) (s c)))
            = cs.map fun c => (c, haQuotient d (v' c) (s c)) := by
          apply List.map_congr_left
          intro c hc
          rw [hv c hc]
        rw [hmapeq]
      rw [hround]

/-- The comparison value is monotone in the vote count. -/
theorem haQuotient_mono {d : ℕ → ℚ} {m : ℕ} (hd : 0 < d (m + 1)) {v v' : ℕ}
    (hvv : v ≤ v') : haQuotient d v m ≤ haQuotient d v' m := by
  rw [haQuotient, haQuotient, ratDiv_eq_div, ratDiv_eq_div]
  have hc : ((v : ℕ) : ℚ) ≤ ((v' : ℕ) : ℚ) := by exact_mod_cast hvv
  exact (div_le_div_right hd).mpr hc

/-- Removing one option from the run: the remaining options evolve as in
a run over the reduced option list with the rounds won by the removed
option skipped. -/
theorem haRun_erase {d : ℕ → ℚ} {cs : List α} {v : α → ℕ} (i : α) (hnd : cs.Nodup) :
    ∀ {n : ℕ} {s : α → ℕ}, haRun d cs v n = .ok s →
      ∃ t, haRun d (cs.erase i) v (n - s i) = .ok t ∧ ∀ c, c ≠ i → t c = s c := by
  intro n
  induction n with
  | zero =>
    intro s h
    rw [haRun_zero_inv h]
    exact ⟨fun _ => 0, rfl, fun _ _ => rfl⟩
  | succ n ih =>
    intro sb h
    obtain ⟨s, w, hrun, hround, hs⟩ := haRun_succ_inv h
    obtain ⟨t, hrt, hts⟩ := ih hrun
    have hsle : s i ≤ n := haRun_le hrun i
    obtain ⟨hwcs, hdom⟩ := haRound_ok_inv hround
    by_cases hwi : w = i
    · have hsbi : sb i = s i + 1 := by
        simp only [hs]
        rw [if_pos hwi.symm]
      refine ⟨t, ?_, ?_⟩
      · rw [hsbi, show n + 1 - (s i + 1) = n - s i from by omega]
        exact hrt
      · intro c hci
        simp only [hs]
        rw [if_neg (fun hcw => hci (hcw.trans hwi))]
        exact hts c hci
    · have hiw : ¬ i = w := fun hh => hwi hh.symm
      have hsbi : sb i = s i := by
        simp only [hs]
        rw [if_neg hiw]
      have hwe : w ∈ cs.erase i := (List.Nodup.mem_erase_iff hnd).mpr ⟨hwi, hwcs⟩
      have hround' : haRound d (cs.erase i) v t = .ok w := by
        apply haRound_ok_of_max (hnd.erase i) hwe
        intro y hy hyw
        have hymem := (List.Nodup.mem_erase_iff hnd).mp hy
        have hq := hdom y hymem.2 hyw
        rw [hts y hymem.1, hts w hwi]
        exact hq
      refine ⟨fun c => if c = w then t c + 1 else t c, ?_, ?_⟩
      · rw [hsbi, show n + 1 - s i = (n - s i) + 1 from by omega, haRun, hrt]
        simp only [hround']
      · intro c hci
        simp only [hs]
        by_cases hcw : c = w
        · rw [if_pos hcw, if_pos hcw, hts c hci]
        · rw [if_neg hcw, if_neg hcw]
          exact hts c hci

/-- Monotonicity of the highest-averages run: raising the vote count of
one option while holding the others fixed never lowers its seats. -/
theorem haRun_mono {d : ℕ → ℚ} {cs : List α} {v v' : α → ℕ} {i : α}
    (hd : ∀ k, 0 < d (k + 1)) (hnd : cs.Nodup)
    (hvi : v i ≤ v' i) (hother : ∀ j, j ≠ i → v' j = v j) :
    ∀ {n : ℕ} {s s' : α → ℕ}, haRun d cs v n = .ok s → haRun d cs v' n = .ok s' →
      s i ≤ s' i := by
  intro n
  induction n with
  | zero =>
    intro s s' h h'
    rw [haRun_zero_inv h, haRun_zero_inv h']
  | succ n ih =>
    intro sb sb' h h'
    obtain ⟨s, w, hrun, hround, hs⟩ := haRun_succ_inv h
    obtain ⟨s', w', hrun', hround', hs'⟩ := haRun_succ_inv h'
    have hle := ih hrun hrun'
    have hsbi : sb i = if i = w then s i + 1 else s i := by simp only [hs]
    have hsbi' : sb' i = if i = w' then s' i + 1 else s' i := by simp only [hs']
    rw [hsbi, hsbi']
    by_cases hiw : i = w
    · by_cases hiw' : i = w'
      · rw [if_pos hiw, if_pos hiw']
        omega
      · rw [if_pos hiw, if_neg hiw']
        rcases lt_or_eq_of_le hle with hlt | heq
        · omega
        · exfalso
          subst hiw
          obtain ⟨t, hrt, hts⟩ := haRun_erase i hnd hrun
          obtain ⟨t', hrt', hts'⟩ := haRun_erase i hnd hrun'
          have hcong : haRun d (cs.erase i) v (n - s i)
              = haRun d (cs.erase i) v' (n - s i) := by
            apply haRun_congr
            intro c hc
            exact (hother c ((List.Nodup.mem_erase_iff hnd).mp hc).1).symm
          have hrt'' : haRun d (cs.erase i) v (n - s i) = .ok t' := by
            rw [hcong, heq]
            exact hrt'
          have htt : t = t' := Except.ok.inj (hrt.symm.trans hrt'')
          have hss' : ∀ c, c ≠ i → s' c = s c := by
            intro c hci
            calc s' c = t' c := (hts' c hci).symm
            _ = t c := by rw [htt]
            _ = s c := hts c hci
          obtain ⟨hwcs, hdom⟩ := haRound_ok_inv hround
          obtain ⟨hwcs', hdom'⟩ := haRound_ok_inv hround'
          have hwi' : w' ≠ i := fun hh => hiw' hh.symm
          have h1 : haQuotient d (v' i) (s' i) < haQuotient d (v' w') (s' w') :=
            hdom' i hwcs hiw'
          have h2 : haQuotient d (v w') (s w') < haQuotient d (v i) (s i) :=
            hdom w' hwcs' hwi'
          have e1 : haQuotient d (v' w') (s' w') = haQuotient d (v w') (s w') := by
            rw [hother w' hwi', hss' w' hwi']
          have e2 : haQuotient d (v i) (s i) ≤ haQuotient d (v' i) (s' i) := by
            rw [← heq]
            exact haQuotient_mono (hd _) hvi
          rw [e1] at h1
          linarith
    · rw [if_neg hiw]
      by_cases hiw' : i = w'
      · rw [if_pos hiw']
        omega
      · rw [if_neg hiw']
        exact hle

/-- Inversion of an extracted seat count. -/
theorem haSeats_some_inv {d : ℕ → ℚ} {cs : List α} {v : α → ℕ} {n : ℕ} {c : α}
    {a : ℕ} (h : haSeats d cs v n c = some a) :
    ∃ s, haRun d cs v n = .ok s ∧ s c = a := by
  unfold haSeats at h
  cases hrun : haRun d cs v n with
  | error e =>
    rw [hrun] at h
    simp [Except.toOption] at h
  | ok s =>
    rw [hrun] at h
    simp [Except.toOption] at h
    exact ⟨s, rfl, h⟩

/-- A tie in one round with at least two tied options is reported as the
tie error. -/
theorem haRound_tie_of_two {d : ℕ → ℚ} {cs : List α} {v seats : α → ℕ}
    (h2 : 2 ≤ (tiedMax (cs.map fun c => (c, haQuotient d (v c) (seats c)))).length) :
    haRound d cs v seats
      = .error (tiedMax (cs.map fun c => (c, haQuotient d (v c) (seats c)))) := by
  unfold haRound
  rcases htm : tiedMax (cs.map fun c => (c, haQuotient d (v c) (seats c)))
      with _ | ⟨x, _ | ⟨y, ys⟩⟩ <;>
    first
      | rfl
      | (rw [htm] at h2; simp at h2)
      | (simp at h2)

/-- A tie in the first round aborts every longer run with the same tie. -/
theorem haRun_tie {d : ℕ → ℚ} {cs : List α} {v : α → ℕ} {ts : List α}
    (htie : haRound d cs v (fun _ => 0) = .error ts) :
    ∀ n, haRun d cs v (n + 1) = .error ts := by
  intro n
  induction n with
  | zero =>
    have h0 : haRun d cs v 0 = .ok (fun _ => 0) := rfl
    rw [haRun, h0]
    simp only [htie]
  | succ n ih =>
    rw [haRun]
    simp only [ih]

end HighestAveragesLemmas

section BiproportionalLemmas

variable {δ : Type} {π : Type}

/-- A successful biproportional iteration only returns a matrix passing
the convergence test, which is exactly the two marginal conditions. -/
theorem bipropIter_ok {v : δ → π → ℕ} {ds : List δ} {ps : List π}
    {rd : δ → ℕ} {rp : π → ℕ} :
    ∀ {fuel : ℕ} {rowDiv : δ → ℚ} {colDiv : π → ℚ} {M : δ → π → ℕ},
      bipropIter v ds ps rd rp fuel rowDiv colDiv = .ok M →
      (∀ dI ∈ ds, rowSum ps M dI = rd dI) ∧ (∀ p ∈ ps, colSum ds M p = rp p) := by
  intro fuel
  induction fuel with
  | zero =>
    intro rowDiv colDiv M h
    cases h
  | succ fuel ih =>
    intro rowDiv colDiv M h
    rw [bipropIter] at h
    split at h
    · rename_i hconv
      have hM : bipropMatrix v rowDiv colDiv = M := Except.ok.inj h
      subst hM
      rw [bipropConverged, Bool.and_eq_true, List.all_eq_true, List.all_eq_true] at hconv
      constructor
      · intro dI hdI
        have := hconv.1 dI hdI
        exact of_decide_eq_true this
      · intro p hp
        have := hconv.2 p hp
        exact of_decide_eq_true this
    · exact ih h

/-- An exhausted iteration cap reports the non-convergence error. -/
theorem bipropIter_zero (v : δ → π → ℕ) (ds : List δ) (ps : List π)
    (rd : δ → ℕ) (rp : π → ℕ) (rowDiv : δ → ℚ) (colDiv : π → ℚ) :
    bipropIter v ds ps rd rp 0 rowDiv colDiv
      = .error "biproportional apportionment did not converge" := rfl

/-- Inversion of an extracted row total. -/
theorem bipropRowSum_some_inv {v : δ → π → ℕ} {ds : List δ} {ps : List π}
    {rd : δ → ℕ} {rp : π → ℕ} {dI : δ} {m : ℕ}
    (h : bipropRowSum v ds ps rd rp dI = some m) :
    ∃ M, BiproportionalEvaluator.evaluate v ds ps rd rp = .ok M ∧ rowSum ps M dI = m := by
  unfold bipropRowSum at h
  cases hev : BiproportionalEvaluator.evaluate v ds ps rd rp with
  | error e =>
    rw [hev] at h
    simp [Except.toOption] at h
  | ok M =>
    rw [hev] at h
    simp [Except.toOption] at h
    exact ⟨M, rfl, h⟩

/-- Inversion of an extracted column total. -/
theorem bipropColSum_some_inv {v : δ → π → ℕ} {ds : List δ} {ps : List π}
    {rd : δ → ℕ} {rp : π → ℕ} {p : π} {m : ℕ}
    (h : bipropColSum v ds ps rd rp p = some m) :
    ∃ M, BiproportionalEvaluator.evaluate v ds ps rd rp = .ok M ∧ colSum ds M p = m := by
  unfold bipropColSum at h
  cases hev : BiproportionalEvaluator.evaluate v ds ps rd rp with
  | error e =>
    rw [hev] at h
    simp [Except.toOption] at h
  | ok M =>
    rw [hev] at h
    simp [Except.toOption] at h
    exact ⟨M, rfl, h⟩

end BiproportionalLemmas

section TransferableVoteLemmas

variable {α : Type} [DecidableEq α]

/-- The Hare transfer moves whole-ballot weight equal to the surplus out
out of the pile of the elected candidate, capped by availability: the
transferred weight among the assigned ballots is exactly the minimum of
the surplus and their total weight. -/
theorem hareTransfer_assigned_sum (asg : List α → Bool) :
    ∀ (surplus : ℕ) (l : List (List α × ℕ)),
      (((hareTransfer asg surplus l).filter (fun p => asg p.1)).map Prod.snd).sum
        = min surplus ((l.filter (fun p => asg p.1)).map Prod.snd).sum := by
  intro surplus l
  induction l generalizing surplus with
  | nil => simp [hareTransfer]
  | cons e rest ih =>
    obtain ⟨b, nb⟩ := e
    rw [hareTransfer]
    by_cases hb : asg b = true
    · rw [if_pos hb]
      rw [List.filter_cons_of_pos (by simpa using hb),
        List.filter_cons_of_pos (by simpa using hb)]
      simp only [List.map_cons, List.sum_cons]
      rw [ih (surplus - min surplus nb)]
      omega
    · rw [if_neg hb]
      rw [List.filter_cons_of_neg (by simpa using hb),
        List.filter_cons_of_neg (by simpa using hb)]
      exact ih surplus

/-- The Hare transfer leaves all ballots of other candidates
untouched. -/
theorem hareTransfer_unassigned (asg : List α → Bool) :
    ∀ (surplus : ℕ) (l : List (List α × ℕ)),
      (hareTransfer asg surplus l).filter (fun p => ! asg p.1)
        = l.filter (fun p => ! asg p.1) := by
  intro surplus l
  induction l generalizing surplus with
  | nil => simp [hareTransfer]
  | cons e rest ih =>
    obtain ⟨b, nb⟩ := e
    rw [hareTransfer]
    by_cases hb : asg b = true
    · rw [if_pos hb]
      rw [List.filter_cons_of_neg (by simp [hb]),
        List.filter_cons_of_neg (by simp [hb])]
      exact ih (surplus - min surplus nb)
    · rw [if_neg hb]
      rw [List.filter_cons_of_pos (by simp [hb]),
        List.filter_cons_of_pos (by simp [hb])]
      rw [ih surplus]

end TransferableVoteLemmas

section CondorcetLemmas

variable {α : Type} [DecidableEq α]

theorem margin_self (d : α → α → ℕ) (a : α) : margin d a a = 0 := by
  rw [margin]
  omega

theorem margin_swap (d : α → α → ℕ) (a b : α) : margin d a b = - margin d b a := by
  rw [margin, margin]
  omega

/-- Counting with pointwise equal predicates. -/
theorem countP_congr_mem {l : List α} {p q : α → Bool}
    (h : ∀ a ∈ l, p a = q a) : l.countP p = l.countP q := by
  induction l with
  | nil => rfl
  | cons a t ih =>
    rw [List.countP_cons, List.countP_cons,
      ih (fun b hb => h b (List.mem_cons_of_mem a hb)), h a (List.mem_cons_self a t)]

/-- In a nodup list containing a member, the options different from it
number one less than the length. -/
theorem countP_ne_of_nodup {cs : List α} {cw : α} (hnd : cs.Nodup) (hcw : cw ∈ cs) :
    cs.countP (fun y => decide (y ≠ cw)) = cs.length - 1 := by
  induction cs with
  | nil => cases hcw
  | cons a t ih =>
    rcases List.nodup_cons.mp hnd with ⟨hat, hndt⟩
    rw [List.countP_cons]
    by_cases hac : a = cw
    · subst hac
      have hall : t.countP (fun y => decide (y ≠ a)) = t.length := by
        rw [List.countP_eq_length]
        intro y hy
        simp only [decide_eq_true_eq]
        exact fun hya => hat (hya ▸ hy)
      rw [hall]
      simp
    · have hcwt : cw ∈ t := by
        rcases List.mem_cons.mp hcw with h | h
        · exact absurd h.symm hac
        · exact h
      have hlen : 1 ≤ t.length := List.length_pos.mpr (List.ne_nil_of_mem hcwt)
      rw [ih hndt hcwt]
      simp only [ne_eq, hac, decide_not, List.length_cons]
      simp [hac]
      omega

/-- Two distinct members force a list length of at least two. -/
theorem two_le_length_of_mem {cs : List α} {x y : α} (hx : x ∈ cs) (hy : y ∈ cs)
    (hxy : x ≠ y) : 2 ≤ cs.length := by
  have hyx : y ∈ cs.erase x := (List.mem_erase_of_ne hxy.symm).mpr hy
  have h1 : 1 ≤ (cs.erase x).length := List.length_pos.mpr (List.ne_nil_of_mem hyx)
  have h2 : (cs.erase x).length = cs.length - 1 := List.length_erase_of_mem hx
  have h3 : 1 ≤ cs.length := List.length_pos.mpr (List.ne_nil_of_mem hx)
  omega

/-- A count over a nodup list missing two distinct members is at most
the length less two. -/
theorem countP_le_length_sub_two {cs : List α} {x cw : α} (p : α → Bool)
    (hnd : cs.Nodup) (hx : x ∈ cs) (hcw : cw ∈ cs) (hxcw : x ≠ cw)
    (hpx : p x = false) (hpcw : p cw = false) :
    cs.countP p ≤ cs.length - 2 := by
  induction cs with
  | nil => cases hx
  | cons a t ih =>
    rcases List.nodup_cons.mp hnd with ⟨hat, hndt⟩
    rw [List.countP_cons]
    by_cases hax : a = x
    · subst hax
      have hcwt : cw ∈ t := by
        rcases List.mem_cons.mp hcw with h | h
        · exact absurd h.symm hxcw
        · exact h
      have hbound : t.countP p ≤ t.length - 1 := by
        calc t.countP p ≤ t.countP (fun y => decide (y ≠ cw)) := by
              apply List.countP_mono_left
              intro y hy hpy
              simp only [decide_eq_true_eq]
              intro hycw
              rw [hycw, hpcw] at hpy
              cases hpy
        _ = t.length - 1 := countP_ne_of_nodup hndt hcwt
      have hlen : 1 ≤ t.length := List.length_pos.mpr (List.ne_nil_of_mem hcwt)
      simp [hpx]
      omega
    · by_cases hacw : a = cw
      · subst hacw
        have hxt : x ∈ t := by
          rcases List.mem_cons.mp hx with h | h
          · exact absurd h.symm hax
          · exact h
        have hbound : t.countP p ≤ t.countP (fun y => decide (y ≠ x)) := by
          apply List.countP_mono_left
          intro y hy hpy
          simp only [decide_eq_true_eq]
          intro hyx
          rw [hyx, hpx] at hpy
          cases hpy
        have heq := countP_ne_of_nodup hndt hxt
        have hlen : 1 ≤ t.length := List.length_pos.mpr (List.ne_nil_of_mem hxt)
        simp [hpcw]
        omega
      · have hxt : x ∈ t := by
          rcases List.mem_cons.mp hx with h | h
          · exact absurd h.symm hax
          · exact h
        have hcwt : cw ∈ t := by
          rcases List.mem_cons.mp hcw with h | h
          · exact absurd h.symm hacw
          · exact h
        have h2 := two_le_length_of_mem hxt hcwt hxcw
        have := ih hndt hxt hcwt
        by_cases hpa : p a = true <;> simp [hpa] <;> omega

/-- Copeland selects a Condorcet winner: its score, wins less losses, is
the largest possible and strictly above every other score. -/
theorem copeland_selects_cw {cs : List α} {d : α → α → ℕ} {cw : α}
    (hnd : cs.Nodup) (hcw : cw ∈ cs)
    (hm : ∀ x ∈ cs, x ≠ cw → 0 < margin d cw x) :
    Copeland.evaluate cs d = [cw] := by
  unfold Copeland.evaluate
  apply tiedMax_map_eq_single _ hnd hcw
  intro y hy hyc
  unfold copelandScore
  have hwin_cw : cs.countP (fun z => decide (0 < margin d cw z)) = cs.length - 1 := by
    rw [countP_congr_mem (q := fun z => decide (z ≠ cw))]
    · exact countP_ne_of_nodup hnd hcw
    · intro z hz
      apply decide_eq_decide.mpr
      constructor
      · intro hpos hzc
        rw [hzc, margin_self] at hpos
        exact lt_irrefl 0 hpos
      · intro hzc
        exact hm z hz hzc
  have hloss_cw : cs.countP (fun z => decide (margin d cw z < 0)) = 0 := by
    rw [List.countP_eq_zero]
    intro z hz
    simp only [decide_eq_true_eq, not_lt]
    by_cases hzc : z = cw
    · rw [hzc, margin_self]
    · exact le_of_lt (hm z hz hzc)
  have hwin_y : cs.countP (fun z => decide (0 < margin d y z)) ≤ cs.length - 2 := by
    apply countP_le_length_sub_two _ hnd hy hcw hyc
    · simp [margin_self]
    · simp only [decide_eq_false_iff_not, not_lt]
      rw [margin_swap]
      have := hm y hy hyc
      omega
  have hloss_y : 1 ≤ cs.countP (fun z => decide (margin d y z < 0)) := by
    have hpos : 0 < cs.countP (fun z => decide (margin d y z < 0)) := by
      apply List.countP_pos_iff.mpr
      refine ⟨cw, hcw, ?_⟩
      simp only [decide_eq_true_eq]
      rw [margin_swap]
      have := hm y hy hyc
      omega
    omega
  have hlen := two_le_length_of_mem hy hcw hyc
  omega

theorem foldl_max_le {l : List ℤ} {b : ℤ} :
    ∀ {a : ℤ}, a ≤ b → (∀ x ∈ l, x ≤ b) → l.foldl max a ≤ b := by
  induction l with
  | nil =>
    intro a ha _
    exact ha
  | cons c t ih =>
    intro a ha hmem
    rw [List.foldl_cons]
    exact ih (max_le ha (hmem c (List.mem_cons_self c t)))
      (fun x hx => hmem x (List.mem_cons_of_mem c hx))

theorem le_foldl_max_init {l : List ℤ} : ∀ {a : ℤ}, a ≤ l.foldl max a := by
  induction l with
  | nil =>
    intro a
    exact le_refl a
  | cons c t ih =>
    intro a
    rw [List.foldl_cons]
    exact le_trans (le_max_left a c) ih

theorem le_foldl_max_of_mem {l : List ℤ} {x : ℤ} (hx : x ∈ l) :
    ∀ {a : ℤ}, x ≤ l.foldl max a := by
  induction l with
  | nil => cases hx
  | cons c t ih =>
    intro a
    rw [List.foldl_cons]
    rcases List.mem_cons.mp hx with rfl | hxt
    · exact le_trans (le_max_right a x) le_foldl_max_init
    · exact ih hxt

/-- A Condorcet winner has no pairwise defeat, so its worst defeat is
the clamp value zero. -/
theorem worstDefeat_cw {cs : List α} {d : α → α → ℕ} {cw : α}
    (hm : ∀ x ∈ cs, x ≠ cw → 0 < margin d cw x) :
    worstDefeat cs d cw = 0 := by
  unfold worstDefeat
  apply le_antisymm
  · apply foldl_max_le (le_refl 0)
    intro x hx
    obtain ⟨y, hy, rfl⟩ := List.mem_map.mp hx
    by_cases hyc : y = cw
    · rw [hyc, margin_self]
    · rw [margin_swap]
      have := hm y hy hyc
      omega
  · exact le_foldl_max_init

/-- Every other candidate is defeated by the Condorcet winner, so its
worst defeat is positive. -/
theorem worstDefeat_pos {cs : List α} {d : α → α → ℕ} {cw x : α}
    (hcw : cw ∈ cs) (hmx : 0 < margin d cw x) : 0 < worstDefeat cs d x := by
  unfold worstDefeat
  have hmem : margin d cw x ∈ cs.map fun y => margin d y x :=
    List.mem_map.mpr ⟨cw, hcw, rfl⟩
  exact lt_of_lt_of_le hmx (le_foldl_max_of_mem hmem)

/-- Minimax selects a Condorcet winner. -/
theorem minimax_selects_cw {cs : List α} {d : α → α → ℕ} {cw : α}
    (hnd : cs.Nodup) (hcw : cw ∈ cs)
    (hm : ∀ x ∈ cs, x ≠ cw → 0 < margin d cw x) :
    Minimax.evaluate cs d = [cw] := by
  unfold Minimax.evaluate
  apply tiedMin_map_eq_single _ hnd hcw
  intro y hy hyc
  rw [worstDefeat_cw hm]
  exact worstDefeat_pos hcw (hm y hy hyc)

/-- The relaxation only raises path strengths above the direct margin. -/
theorem foldl_fw_ge : ∀ (ks : List α) (p : α → α → ℤ) (a b : α),
    p a b ≤ (ks.foldl fwUpdate p) a b := by
  intro ks
  induction ks with
  | nil =>
    intro p a b
    exact le_refl _
  | cons k ks ih =>
    intro p a b
    rw [List.foldl_cons]
    exact le_trans (le_max_left _ _) (ih (fwUpdate p k) a b)

/-- Invariant of the strongest-path relaxation: all strengths into a
Condorcet winner stay negative. -/
theorem foldl_fw_into_cw {cs : List α} {cw : α} :
    ∀ (ks : List α), (∀ k ∈ ks, k ∈ cs) → ∀ (p : α → α → ℤ),
      (∀ a ∈ cs, a ≠ cw → p a cw < 0) → p cw cw ≤ 0 →
      (∀ a ∈ cs, a ≠ cw → (ks.foldl fwUpdate p) a cw < 0) ∧
        (ks.foldl fwUpdate p) cw cw ≤ 0 := by
  intro ks
  induction ks with
  | nil =>
    intro _ p h1 h2
    exact ⟨h1, h2⟩
  | cons k ks ih =>
    intro hks p h1 h2
    rw [List.foldl_cons]
    have hk : k ∈ cs := hks k (List.mem_cons_self k ks)
    have h1' : ∀ a ∈ cs, a ≠ cw → fwUpdate p k a cw < 0 := by
      intro a ha hac
      rw [fwUpdate]
      apply max_lt (h1 a ha hac)
      by_cases hkc : k = cw
      · rw [hkc]
        exact lt_of_le_of_lt (min_le_left _ _) (h1 a ha hac)
      · exact lt_of_le_of_lt (min_le_right _ _) (h1 k hk hkc)
    have h2' : fwUpdate p k cw cw ≤ 0 := by
      rw [fwUpdate]
      apply max_le h2
      by_cases hkc : k = cw
      · rw [hkc]
        exact le_trans (min_le_right _ _) h2
      · exact le_trans (min_le_right _ _) (le_of_lt (h1 k hk hkc))
    exact ih (fun j hj => hks j (List.mem_cons_of_mem k hj)) (fwUpdate p k) h1' h2'

/-- Schulze selects a Condorcet winner. -/
theorem schulze_selects_cw {cs : List α} {d : α → α → ℕ} {cw : α}
    (hnd : cs.Nodup) (hcw : cw ∈ cs)
    (hm : ∀ x ∈ cs, x ≠ cw → 0 < margin d cw x) :
    Schulze.evaluate cs d = [cw] := by
  have hneg : ∀ a ∈ cs, a ≠ cw → strongestPaths cs d a cw < 0 := by
    have hbase : ∀ a ∈ cs, a ≠ cw → margin d a cw < 0 := by
      intro a ha hac
      rw [margin_swap]
      have := hm a ha hac
      omega
    exact (foldl_fw_into_cw cs (fun k hk => hk) (margin d) hbase
      (le_of_eq (margin_self d cw))).1
  have hge : ∀ y ∈ cs, y ≠ cw → 0 < strongestPaths cs d cw y := by
    intro y hy hyc
    exact lt_of_lt_of_le (hm y hy hyc) (foldl_fw_ge cs (margin d) cw y)
  unfold Schulze.evaluate
  apply filter_eq_single_of _ hnd hcw
  · rw [List.all_eq_true]
    intro y hy
    by_cases hyc : y = cw
    · simp [hyc]
    · have h1 : strongestPaths cs d y cw < strongestPaths cs d cw y :=
        lt_trans (hneg y hy hyc) (hge y hy hyc)
      simp [h1]
  · intro y hy hyc
    apply List.all_eq_false.mpr
    refine ⟨cw, hcw, ?_⟩
    rw [Bool.or_eq_true]
    push_neg
    constructor
    · rw [decide_eq_false (fun h : cw = y => hyc h.symm)]
      simp
    · have h1 : strongestPaths cs d y cw < 0 := hneg y hy hyc
      have h2 : 0 < strongestPaths cs d cw y := hge y hy hyc
      have h3 : ¬ (strongestPaths cs d cw y < strongestPaths cs d y cw) := by omega
      rw [decide_eq_false h3]
      simp

/-- Every processed victory joins two listed candidates with a positive
margin. -/
theorem mem_sortedVictories {cs : List α} {d : α → α → ℕ} {e : α × α}
    (he : e ∈ sortedVictories cs d) :
    e.1 ∈ cs ∧ e.2 ∈ cs ∧ 0 < margin d e.1 e.2 := by
  have hv : e ∈ victories cs d := (List.perm_insertionSort _ _).mem_iff.mp he
  rcases List.mem_filter.mp hv with ⟨hap, hpos⟩
  obtain ⟨a, ha, hmem⟩ := List.mem_flatMap.mp hap
  obtain ⟨b, hb, rfl⟩ := List.mem_map.mp hmem
  exact ⟨ha, hb, of_decide_eq_true hpos⟩

/-- A victory never points into a Condorcet winner. -/
theorem victory_not_into_cw {cs : List α} {d : α → α → ℕ} {cw : α}
    (hm : ∀ x ∈ cs, x ≠ cw → 0 < margin d cw x) {e : α × α}
    (he1 : e.1 ∈ cs) (hepos : 0 < margin d e.1 e.2) : e.2 ≠ cw := by
  intro hcon
  rw [hcon] at hepos
  by_cases h1 : e.1 = cw
  · rw [h1, margin_self] at hepos
    exact lt_irrefl 0 hepos
  · have := hm e.1 he1 h1
    rw [margin_swap] at hepos
    omega

/-- Without locked edges into a candidate, that candidate stays
unreachable. -/
theorem canReach_cw_false {edges : List (α × α)} {cw : α}
    (hedges : ∀ e ∈ edges, e.2 ≠ cw) :
    ∀ (fuel : ℕ) (a : α), a ≠ cw → canReach edges fuel a cw = false := by
  intro fuel
  induction fuel with
  | zero =>
    intro a hac
    exact decide_eq_false hac
  | succ fuel ih =>
    intro a hac
    rw [canReach, decide_eq_false hac, Bool.false_or]
    apply List.any_eq_false.mpr
    intro e he
    have hee : e ∈ edges := (List.mem_filter.mp he).1
    rw [ih e.2 (hedges e hee)]
    simp

/-- Locked edges persist through the locking loop. -/
theorem lockIn_mem_mono {fuel : ℕ} :
    ∀ (rest locked : List (α × α)) (e : α × α), e ∈ locked →
      e ∈ lockIn fuel rest locked := by
  intro rest
  induction rest with
  | nil =>
    intro locked e he
    exact he
  | cons f rest ih =>
    intro locked e he
    rw [lockIn]
    split
    · exact ih locked e he
    · exact ih (locked ++ [f]) e (List.mem_append_left _ he)

/-- The locking loop never locks an edge into a Condorcet winner. -/
theorem lockIn_no_cw {cs : List α} {d : α → α → ℕ} {cw : α} {fuel : ℕ}
    (hm : ∀ x ∈ cs, x ≠ cw → 0 < margin d cw x) :
    ∀ (rest locked : List (α × α)),
      (∀ e ∈ rest, e.1 ∈ cs ∧ 0 < margin d e.1 e.2) →
      (∀ e ∈ locked, e.2 ≠ cw) →
      ∀ e ∈ lockIn fuel rest locked, e.2 ≠ cw := by
  intro rest
  induction rest with
  | nil =>
    intro locked _ hlocked e he
    exact hlocked e he
  | cons f rest ih =>
    intro locked hrest hlocked e he
    rw [lockIn] at he
    have hf := hrest f (List.mem_cons_self f rest)
    have hrest' : ∀ e ∈ rest, e.1 ∈ cs ∧ 0 < margin d e.1 e.2 :=
      fun e he => hrest e (List.mem_cons_of_mem f he)
    split at he
    · exact ih locked hrest' hlocked e he
    · refine ih (locked ++ [f]) hrest' ?_ e he
      intro e' he'
      rcases List.mem_append.mp he' with h | h
      · exact hlocked e' h
      · rw [List.mem_singleton.mp h]
        exact victory_not_into_cw hm hf.1 hf.2

/-- A victory of the Condorcet winner is always locked: it can never
close a cycle because nothing reaches the winner. -/
theorem lockIn_locks_cw_edge {cs : List α} {d : α → α → ℕ} {cw x : α} {fuel : ℕ}
    (hm : ∀ y ∈ cs, y ≠ cw → 0 < margin d cw y) :
    ∀ (rest locked : List (α × α)),
      (∀ e ∈ rest, e.1 ∈ cs ∧ 0 < margin d e.1 e.2) →
      (∀ e ∈ locked, e.2 ≠ cw) →
      (cw, x) ∈ rest → (cw, x) ∈ lockIn fuel rest locked := by
  intro rest
  induction rest with
  | nil =>
    intro _ _ _ hmem
    cases hmem
  | cons f rest ih =>
    intro locked hrest hlocked hmem
    have hrest' : ∀ e ∈ rest, e.1 ∈ cs ∧ 0 < margin d e.1 e.2 :=
      fun e he => hrest e (List.mem_cons_of_mem f he)
    rw [lockIn]
    rcases List.mem_cons.mp hmem with heq | hmem'
    · have hf := hrest f (List.mem_cons_self f rest)
      have hxcw : f.2 ≠ f.1 := by
        intro hcon
        rw [hcon, margin_self] at hf
        exact lt_irrefl 0 hf.2
      have hf1 : f.1 = cw := by rw [← heq]
      have hreach : canReach locked fuel f.2 f.1 = false := by
        rw [hf1]
        exact canReach_cw_false hlocked fuel f.2 (hf1 ▸ hxcw)
      rw [hreach]
      simp only [Bool.false_eq_true, if_false]
      apply lockIn_mem_mono
      rw [heq]
      exact List.mem_append_right _ (List.mem_singleton.mpr rfl)
    · have hf := hrest f (List.mem_cons_self f rest)
      split
      · exact ih locked hrest' hlocked hmem'
      · refine ih (locked ++ [f]) hrest' ?_ hmem'
        intro e' he'
        rcases List.mem_append.mp he' with h | h
        · exact hlocked e' h
        · rw [List.mem_singleton.mp h]
          exact victory_not_into_cw hm hf.1 hf.2

/-- Ranked pairs selects a Condorcet winner. -/
theorem rankedpairs_selects_cw {cs : List α} {d : α → α → ℕ} {cw : α}
    (hnd : cs.Nodup) (hcw : cw ∈ cs)
    (hm : ∀ x ∈ cs, x ≠ cw → 0 < margin d cw x) :
    RankedPairs.evaluate cs d = [cw] := by
  have hq : ∀ e ∈ sortedVictories cs d, e.1 ∈ cs ∧ 0 < margin d e.1 e.2 := by
    intro e he
    have := mem_sortedVictories he
    exact ⟨this.1, this.2.2⟩
  unfold RankedPairs.evaluate
  apply filter_eq_single_of _ hnd hcw
  · rw [List.all_eq_true]
    intro e he
    have := lockIn_no_cw hm (sortedVictories cs d) [] hq (by intro e' he'; cases he') e he
    exact decide_eq_true this
  · intro y hy hyc
    apply List.all_eq_false.mpr
    have hvic : (cw, y) ∈ sortedVictories cs d := by
      apply (List.perm_insertionSort _ _).mem_iff.mpr
      apply List.mem_filter.mpr
      constructor
      · exact List.mem_flatMap.mpr ⟨cw, hcw, List.mem_map.mpr ⟨y, hy, rfl⟩⟩
      · exact decide_eq_true (hm y hy hyc)
    refine ⟨(cw, y), ?_, ?_⟩
    · exact lockIn_locks_cw_edge hm (sortedVictories cs d) [] hq
        (by intro e' he'; cases he') hvic
    · simp

/-- Decomposition of the agreement score over an append: the two part
scores plus the cross support of the front over the back. -/
theorem kemenyScore_append (d : α → α → ℕ) :
    ∀ (l m : List α), kemenyScore d (l ++ m)
      = kemenyScore d l + kemenyScore d m
        + (l.map fun a => (m.map fun b => ((d a b : ℕ) : ℤ)).sum).sum := by
  intro l m
  induction l with
  | nil => simp [kemenyScore]
  | cons a l ih =>
    simp only [List.cons_append, kemenyScore, List.append_eq, List.map_append,
      List.sum_append, ih, List.map_cons, List.sum_cons]
    ring

/-- Swapping an adjacent pair changes the agreement score by the pair
support difference. -/
theorem kemenyScore_swap (d : α → α → ℕ) (u t : List α) (y c : α) :
    kemenyScore d (u ++ c :: y :: t)
      = kemenyScore d (u ++ y :: c :: t) + ((d c y : ℕ) : ℤ) - ((d y c : ℕ) : ℤ) := by
  rw [kemenyScore_append, kemenyScore_append]
  have h1 : kemenyScore d (c :: y :: t)
      = ((d c y : ℕ) : ℤ) + (t.map fun b => ((d c b : ℕ) : ℤ)).sum
        + ((t.map fun b => ((d y b : ℕ) : ℤ)).sum + kemenyScore d t) := by
    simp only [kemenyScore, List.map_cons, List.sum_cons]
  have h2 : kemenyScore d (y :: c :: t)
      = ((d y c : ℕ) : ℤ) + (t.map fun b => ((d y b : ℕ) : ℤ)).sum
        + ((t.map fun b => ((d c b : ℕ) : ℤ)).sum + kemenyScore d t) := by
    simp only [kemenyScore, List.map_cons, List.sum_cons]
  have hcross : (u.map fun a => ((c :: y :: t).map fun b => ((d a b : ℕ) : ℤ)).sum)
      = u.map fun a => ((y :: c :: t).map fun b => ((d a b : ℕ) : ℤ)).sum := by
    apply List.map_congr_left
    intro a _
    exact List.Perm.sum_eq (List.Perm.map _ (List.Perm.swap y c t))
  rw [h1, h2, hcross]
  ring

/-- Every ranking of maximal agreement score starts with the Condorcet
winner: otherwise promoting it past its predecessor would raise the
score. -/
theorem kemeny_optimal_head {cs : List α} {d : α → α → ℕ} {cw : α}
    (hndcs : cs.Nodup) (hcw : cw ∈ cs)
    (hm : ∀ x ∈ cs, x ≠ cw → 0 < margin d cw x) {r : List α}
    (hr : List.Perm r cs)
    (hopt : ∀ r2 ∈ cs.permutations', kemenyScore d r2 ≤ kemenyScore d r) :
    r.head? = some cw := by
  have hcwr : cw ∈ r := hr.mem_iff.mpr hcw
  obtain ⟨u, t, rfl⟩ := List.append_of_mem hcwr
  rcases List.eq_nil_or_concat u with rfl | ⟨u', y, rfl⟩
  · simp
  · exfalso
    have hre : u'.concat y ++ cw :: t = u' ++ y :: cw :: t := by simp
    rw [hre] at hr hopt
    have hndr : (u' ++ y :: cw :: t).Nodup := hr.nodup_iff.mpr hndcs
    have hsubl : List.Sublist (y :: cw :: t) (u' ++ y :: cw :: t) :=
      List.sublist_append_right u' _
    have hndsuf : (y :: cw :: t).Nodup := List.Nodup.sublist hsubl hndr
    have hyne : y ≠ cw := by
      have := (List.nodup_cons.mp hndsuf).1
      intro hcon
      exact this (hcon ▸ List.mem_cons_self cw t)
    have hycs : y ∈ cs := hr.mem_iff.mp
      (List.mem_append_right u' (List.mem_cons_self y _))
    have hperm2 : List.Perm (u' ++ cw :: y :: t) (u' ++ y :: cw :: t) :=
      List.Perm.append_left u' (List.Perm.swap cw y t).symm
    have hmem2 : (u' ++ cw :: y :: t) ∈ cs.permutations' :=
      List.mem_permutations'.mpr (hperm2.trans hr)
    have hscore := hopt (u' ++ cw :: y :: t) hmem2
    have hswap := kemenyScore_swap d u' t y cw
    have hmpos := hm y hycs hyne
    rw [margin] at hmpos
    omega

/-- The deduplication of a nonempty constant list is the singleton. -/
theorem dedup_const {l : List α} {a : α} (hne : l ≠ []) (hall : ∀ x ∈ l, x = a) :
    l.dedup = [a] := by
  induction l with
  | nil => cases hne rfl
  | cons b t ih =>
    have hb : b = a := hall b (List.mem_cons_self b t)
    subst hb
    rcases eq_or_ne t [] with rfl | htne
    · simp
    · have hat : b ∈ t := by
        obtain ⟨c, hc⟩ := List.exists_mem_of_ne_nil t htne
        have : c = b := hall c (List.mem_cons_of_mem b hc)
        rw [← this]
        exact hc
      rw [List.dedup_cons_of_mem hat]
      exact ih htne (fun x hx => hall x (List.mem_cons_of_mem _ hx))

/-- Kemeny-Young selects a Condorcet winner. -/
theorem kemeny_selects_cw {cs : List α} {d : α → α → ℕ} {cw : α}
    (hnd : cs.Nodup) (hcw : cw ∈ cs)
    (hm : ∀ x ∈ cs, x ≠ cw → 0 < margin d cw x) :
    KemenyYoung.evaluate cs d = [cw] := by
  unfold KemenyYoung.evaluate
  have hheads : ∀ r ∈ tiedMax ((cs.permutations').map fun r => (r, kemenyScore d r)),
      r.head? = some cw := by
    intro r hrmem
    obtain ⟨v, hrv, hub⟩ := mem_tiedMax hrmem
    obtain ⟨r', hr', heq⟩ := List.mem_map.mp hrv
    have hrr : r' = r := congrArg Prod.fst heq
    subst hrr
    have hv : v = kemenyScore d r' := (congrArg Prod.snd heq).symm
    subst hv
    have hperm : List.Perm r' cs := List.mem_permutations'.mp hr'
    have hopt : ∀ r2 ∈ cs.permutations', kemenyScore d r2 ≤ kemenyScore d r' := by
      intro r2 h2
      exact hub (r2, kemenyScore d r2) (List.mem_map.mpr ⟨r2, h2, rfl⟩)
    exact kemeny_optimal_head hnd hcw hm hperm hopt
  have hall : ∀ z ∈ (tiedMax ((cs.permutations').map fun r =>
      (r, kemenyScore d r))).filterMap List.head?, z = cw := by
    intro z hz
    obtain ⟨r, hrmem, hhead⟩ := List.mem_filterMap.mp hz
    have := hheads r hrmem
    rw [hhead] at this
    exact Option.some.inj this
  have hne : (tiedMax ((cs.permutations').map fun r =>
      (r, kemenyScore d r))).filterMap List.head? ≠ [] := by
    have hpne : (cs.permutations').map (fun r => (r, kemenyScore d r)) ≠ [] := by
      intro hcon
      have hmem : cs ∈ cs.permutations' := List.mem_permutations'.mpr (List.Perm.refl cs)
      have : (cs, kemenyScore d cs)
          ∈ (cs.permutations').map (fun r => (r, kemenyScore d r)) :=
        List.mem_map.mpr ⟨cs, hmem, rfl⟩
      rw [hcon] at this
      cases this
    have htne := tiedMax_ne_nil hpne
    obtain ⟨r, hr⟩ := List.exists_mem_of_ne_nil _ htne
    have hhead := hheads r hr
    apply List.ne_nil_of_mem (a := cw)
    exact List.mem_filterMap.mpr ⟨r, hr, hhead⟩
  exact dedup_const hne hall

end CondorcetLemmas

/-! ## Tie reporting lemmas: tied decisive scores are reported, never
silently resolved -/

section TieReportingLemmas

variable {α : Type} {β : Type} [DecidableEq α] [DecidableEq β] [LinearOrder β]

/-- An option whose value is maximal over the option list belongs to the
tied maximum: a score tie is reported, both tied options appear. -/
theorem tiedMax_map_mem_of_max (f : α → β) {cs : List α} {x : α}
    (hx : x ∈ cs) (hub : ∀ y ∈ cs, f y ≤ f x) :
    x ∈ tiedMax (cs.map fun c => (c, f c)) := by
  unfold tiedMax
  cases hmax : ((cs.map fun c => (c, f c)).map Prod.snd).max? with
  | none =>
    rw [List.max?_eq_none_iff, List.map_eq_nil_iff, List.map_eq_nil_iff] at hmax
    subst hmax
    cases hx
  | some m =>
    have hm := (max?_eq_some_iff_linear.mp hmax).1
    obtain ⟨p, hp, hpm⟩ := List.mem_map.mp hm
    obtain ⟨z, hz, rfl⟩ := List.mem_map.mp hp
    have hxm : f x = m := by
      apply le_antisymm
      · exact (max?_eq_some_iff_linear.mp hmax).2 (f x)
          (List.mem_map.mpr ⟨(x, f x), List.mem_map.mpr ⟨x, hx, rfl⟩, rfl⟩)
      · rw [← hpm]
        exact hub z hz
    apply List.mem_map.mpr
    refine ⟨(x, f x), ?_, rfl⟩
    exact List.mem_filter.mpr ⟨List.mem_map.mpr ⟨x, hx, rfl⟩, by simp [hxm]⟩

/-- An option whose value is minimal over the option list belongs to the
tied minimum. -/
theorem tiedMin_map_mem_of_min (f : α → β) {cs : List α} {x : α}
    (hx : x ∈ cs) (hlb : ∀ y ∈ cs, f x ≤ f y) :
    x ∈ tiedMin (cs.map fun c => (c, f c)) := by
  unfold tiedMin
  cases hmin : ((cs.map fun c => (c, f c)).map Prod.snd).min? with
  | none =>
    rw [List.min?_eq_none_iff, List.map_eq_nil_iff, List.map_eq_nil_iff] at hmin
    subst hmin
    cases hx
  | some m =>
    have hm := (min?_eq_some_iff_linear.mp hmin).1
    obtain ⟨p, hp, hpm⟩ := List.mem_map.mp hm
    obtain ⟨z, hz, rfl⟩ := List.mem_map.mp hp
    have hxm : f x = m := by
      apply le_antisymm
      · rw [← hpm]
        exact hlb z hz
      · exact (min?_eq_some_iff_linear.mp hmin).2 (f x)
          (List.mem_map.mpr ⟨(x, f x), List.mem_map.mpr ⟨x, hx, rfl⟩, rfl⟩)
    apply List.mem_map.mpr
    refine ⟨(x, f x), ?_, rfl⟩
    exact List.mem_filter.mpr ⟨List.mem_map.mpr ⟨x, hx, rfl⟩, by simp [hxm]⟩

/-- Modelled from the spec: when no continuing candidate meets the quota
and the lowest tally is shared by at least two candidates, the
transferable vote round reports exactly the tied candidate set instead
of eliminating one of them. -/
theorem stvLoop_elimination_tie {q fuel : ℕ} {active : List α}
    {votes : List (List α × ℕ)} {elected : List α} {k : ℕ} {ls : List α}
    (hlen : ¬ active.length ≤ k + 1)
    (hnoq : active.filter (fun c => q ≤ stvTally votes active c) = [])
    (hmin : tiedMin (active.map fun c => (c, stvTally votes active c)) = ls)
    (h2 : 2 ≤ ls.length) :
    stvLoop q (fuel + 1) active votes elected (k + 1) = .error ls := by
  rw [stvLoop, if_neg hlen]
  simp only [hnoq, hmin]
  rcases ls with _ | ⟨a, _ | ⟨b, rest⟩⟩
  · simp at h2
  · simp at h2
  · rfl

/-- Modelled from the spec: when the highest tally among the candidates
meeting the quota is shared by at least two of them, the transferable
vote round reports exactly the tied candidate set instead of electing
one of them. -/
theorem stvLoop_election_tie {q fuel : ℕ} {active : List α}
    {votes : List (List α × ℕ)} {elected : List α} {k : ℕ}
    {c : α} {cs : List α} {ws : List α}
    (hlen : ¬ active.length ≤ k + 1)
    (hoq : active.filter (fun x => q ≤ stvTally votes active x) = c :: cs)
    (hmax : tiedMax ((c :: cs).map fun w => (w, stvTally votes active w)) = ws)
    (h2 : 2 ≤ ws.length) :
    stvLoop q (fuel + 1) active votes elected (k + 1) = .error ws := by
  rw [stvLoop, if_neg hlen]
  simp only [hoq, hmax]
  rcases ws with _ | ⟨a, _ | ⟨b, rest⟩⟩
  · simp at h2
  · simp at h2
  · rfl

end TieReportingLemmas

section FinalHelpers

variable {α : Type} [DecidableEq α]

theorem dHondtDivisor_pos : ∀ k : ℕ, 0 < dHondtDivisor (k + 1) := by
  intro k
  unfold dHondtDivisor
  positivity

/-- Inversion of a successful highest-averages evaluation. -/
theorem haEvaluate_ok_inv {d : ℕ → ℚ} {cs : List α} {v : α → ℕ} {n : ℕ}
    {res : List (α × ℕ)} (h : HighestAverages.evaluate d cs v n = .ok res) :
    ∃ s, haRun d cs v n = .ok s ∧ res = cs.map fun c => (c, s c) := by
  unfold HighestAverages.evaluate at h
  cases hrun : haRun d cs v n with
  | error e =>
    rw [hrun] at h
    cases h
  | ok s =>
    rw [hrun] at h
    exact ⟨s, rfl, (Except.ok.inj h).symm⟩

end FinalHelpers

end Votelib

/-! # Theorems for the specified properties -/

namespace Votelib

section Claims

variable {α : Type} [DecidableEq α]

/-- Claim C1: for every modelled distribution evaluation with a requested seat
count n, the seats awarded sum to exactly n, hence never exceed it: a
successful highest-averages run (the fill-all-seats rule of the Czech
regional evaluations) awards exactly n seats; a successful
largest-remainder apportionment with a positive quota that fits n times
into the vote total awards exactly n seats after remainder correction;
and the FixedSeatCount wrapper evaluates its wrapped evaluator exactly
at its configured seat count, as with the 200-seat Czech evaluators. -/
theorem C1_seat_total_invariant (d : ℕ → ℚ) (quotaF : ℕ → ℕ → ℚ) :
    (∀ (cs : List α) (v : α → ℕ) (n : ℕ) (res : List (α × ℕ)), cs.Nodup →
      HighestAverages.evaluate d cs v n = .ok res → distTotal res = n)
    ∧ (∀ (votes : List (α × ℕ)) (n : ℕ) (res : List (α × ℕ)),
        (votes.map Prod.fst).Nodup → 0 < lrQuota quotaF votes n →
        (n : ℚ) ≤ ratDiv (((votes.map Prod.snd).sum : ℕ) : ℚ) (lrQuota quotaF votes n) →
        LargestRemainder.evaluate quotaF votes n = .ok res → distTotal res = n)
    ∧ (∀ (V ε β : Type) (ev : V → ℕ → Except ε β) (n : ℕ) (votes : V),
        FixedSeatCount.evaluate ev n votes = ev votes n) := by
  refine ⟨?_, ?_, ?_⟩
  · intro cs v n res hnd hok
    obtain ⟨s, hrun, rfl⟩ := haEvaluate_ok_inv hok
    rw [distTotal, List.map_map]
    have : (Prod.snd ∘ fun c => (c, s c)) = s := rfl
    rw [this]
    exact haRun_total hnd hrun
  · intro votes n res hnd hq hql hok
    apply lr_total_of_ok hnd hq ?_ hok
    rw [ratDiv_eq_div] at hql
    exact (le_div_iff hq).mp hql
  · intro V ε β ev n votes
    rfl

/-- Witness for C1 at concrete highest-averages, largest-remainder and
fixed-seat-count evaluations. -/
theorem C1_seat_total_invariant_witness :
    distTotal [(0, 1), (1, 2)] = 3
    ∧ distTotal [(0, 2), (1, 2), (2, 0)] = 4
    ∧ FixedSeatCount.evaluate (fun (_ : ℕ) (n : ℕ) => (Except.ok n : Except ℕ ℕ)) 200 5
        = (fun (_ : ℕ) (n : ℕ) => (Except.ok n : Except ℕ ℕ)) 5 200 := by
  refine ⟨?_, ?_, ?_⟩
  · exact (C1_seat_total_invariant dHondtDivisor hareQuota).1
      [0, 1] (fun c => if c = 0 then 3 else 5) 3 [(0, 1), (1, 2)]
      (by decide) (by decide)
  · exact (C1_seat_total_invariant dHondtDivisor hareQuota).2.1
      [(0, 100), (1, 80), (2, 20)] 4 [(0, 2), (1, 2), (2, 0)]
      (by decide) (by decide) (by decide) (by decide)
  · exact (C1_seat_total_invariant (α := ℕ) dHondtDivisor hareQuota).2.2
      ℕ ℕ ℕ (fun _ n => Except.ok n) 200 5

/-- Claim C2: a successful largest-remainder apportionment with any configured
quota function awards exactly the requested n seats after remainder
correction, and no option receives more seats than the ceiling of its
votes over the quota.  The quota is positive and fits n times into the
vote total, as all configured quota functions guarantee. -/
theorem C2_largest_remainder (quotaF : ℕ → ℕ → ℚ) (votes : List (α × ℕ)) (n : ℕ)
    (res : List (α × ℕ)) (hnd : (votes.map Prod.fst).Nodup)
    (hq : 0 < lrQuota quotaF votes n)
    (hql : (n : ℚ) ≤ ratDiv (((votes.map Prod.snd).sum : ℕ) : ℚ) (lrQuota quotaF votes n))
    (hok : LargestRemainder.evaluate quotaF votes n = .ok res) :
    distTotal res = n ∧ ∀ pr ∈ res, ∀ v, (pr.1, v) ∈ votes →
      ((pr.2 : ℕ) : ℤ) ≤ ⌈((v : ℕ) : ℚ) / lrQuota quotaF votes n⌉ := by
  have hql' : (n : ℚ) * lrQuota quotaF votes n ≤ (((votes.map Prod.snd).sum : ℕ) : ℚ) := by
    rw [ratDiv_eq_div] at hql
    exact (le_div_iff hq).mp hql
  exact ⟨lr_total_of_ok hnd hq hql' hok, lr_ceil_of_ok hnd hq hql' hok⟩

/-- Witness for C2 at the Hare-quota fixture of the spec. -/
theorem C2_largest_remainder_witness :
    distTotal [(0, 2), (1, 2), (2, 0)] = 4
    ∧ (((2 : ℕ) : ℤ))
        ≤ ⌈((100 : ℕ) : ℚ) / lrQuota hareQuota [(0, 100), (1, 80), (2, 20)] 4⌉ := by
  have h := C2_largest_remainder hareQuota [(0, 100), (1, 80), (2, 20)] 4
    [(0, 2), (1, 2), (2, 0)] (by decide) (by decide) (by decide) (by decide)
  exact ⟨h.1, h.2 (0, 2) (by decide) 100 (by decide)⟩

/-- Claim C3: whenever the biproportional evaluator converges within the
iteration cap and returns a rounded seat matrix, its row sums equal the
supplied district seat totals and its column sums equal the supplied
party seat totals; an exhausted cap is reported as a voting-system
error, never an endless loop. -/
theorem C3_biproportional {δ π : Type} (v : δ → π → ℕ) (ds : List δ) (ps : List π)
    (rd : δ → ℕ) (rp : π → ℕ) :
    (∀ dI ∈ ds, ∀ m, bipropRowSum v ds ps rd rp dI = some m → m = rd dI)
    ∧ (∀ p ∈ ps, ∀ m, bipropColSum v ds ps rd rp p = some m → m = rp p)
    ∧ (∀ (rowDiv : δ → ℚ) (colDiv : π → ℚ),
        bipropIter v ds ps rd rp 0 rowDiv colDiv
          = .error "biproportional apportionment did not converge") := by
  refine ⟨?_, ?_, ?_⟩
  · intro dI hdI m hm
    obtain ⟨M, hev, hsum⟩ := bipropRowSum_some_inv hm
    rw [← hsum]
    exact ((bipropIter_ok hev).1 dI hdI).symm ▸ rfl
  · intro p hp m hm
    obtain ⟨M, hev, hsum⟩ := bipropColSum_some_inv hm
    rw [← hsum]
    exact ((bipropIter_ok hev).2 p hp).symm ▸ rfl
  · intro rowDiv colDiv
    rfl

/-- Witness for C3 at a two-district, two-party identity matrix. -/
theorem C3_biproportional_witness :
    (1 : ℕ) = (fun _ : ℕ => 1) 0
    ∧ (1 : ℕ) = (fun _ : ℕ => 1) 1
    ∧ bipropIter (fun dI p : ℕ => if dI = p then 1 else 0) [0, 1] [0, 1]
        (fun _ => 1) (fun _ => 1) 0 (fun _ => 1) (fun _ => 1)
        = .error "biproportional apportionment did not converge" := by
  have h := C3_biproportional (fun dI p : ℕ => if dI = p then 1 else 0) [0, 1] [0, 1]
    (fun _ => 1) (fun _ => 1)
  exact ⟨h.1 0 (by decide) 1 (by decide), h.2.1 1 (by decide) 1 (by decide),
    h.2.2 (fun _ => 1) (fun _ => 1)⟩

/-- Claim C4: on every ranked vote profile whose pairwise win matrix has a
Condorcet winner, each of the Copeland, Minimax, Schulze, ranked-pairs
and Kemeny-Young selections elects exactly that winner. -/
theorem C4_condorcet_winner (votes : List (List α × ℕ)) (cs : List α) (cw : α)
    (hnd : cs.Nodup) (hcw : cw ∈ cs)
    (hbeats : ∀ x ∈ cs, x ≠ cw →
      pairwinCounts votes x cw < pairwinCounts votes cw x) :
    Copeland.evaluate cs (pairwinCounts votes) = [cw]
    ∧ Minimax.evaluate cs (pairwinCounts votes) = [cw]
    ∧ Schulze.evaluate cs (pairwinCounts votes) = [cw]
    ∧ RankedPairs.evaluate cs (pairwinCounts votes) = [cw]
    ∧ KemenyYoung.evaluate cs (pairwinCounts votes) = [cw] := by
  have hm : ∀ x ∈ cs, x ≠ cw → 0 < margin (pairwinCounts votes) cw x := by
    intro x hx hxc
    have := hbeats x hx hxc
    rw [margin]
    omega
  exact ⟨copeland_selects_cw hnd hcw hm, minimax_selects_cw hnd hcw hm,
    schulze_selects_cw hnd hcw hm, rankedpairs_selects_cw hnd hcw hm,
    kemeny_selects_cw hnd hcw hm⟩

/-- Witness for C4 on a three-candidate profile with Condorcet winner 1. -/
theorem C4_condorcet_winner_witness :
    Copeland.evaluate [0, 1, 2] (pairwinCounts [([0,1,2], 4), ([1,2,0], 3), ([2,1,0], 2)]) = [1]
    ∧ Minimax.evaluate [0, 1, 2] (pairwinCounts [([0,1,2], 4), ([1,2,0], 3), ([2,1,0], 2)]) = [1]
    ∧ Schulze.evaluate [0, 1, 2] (pairwinCounts [([0,1,2], 4), ([1,2,0], 3), ([2,1,0], 2)]) = [1]
    ∧ RankedPairs.evaluate [0, 1, 2] (pairwinCounts [([0,1,2], 4), ([1,2,0], 3), ([2,1,0], 2)]) = [1]
    ∧ KemenyYoung.evaluate [0, 1, 2] (pairwinCounts [([0,1,2], 4), ([1,2,0], 3), ([2,1,0], 2)]) = [1] :=
  C4_condorcet_winner [([0,1,2], 4), ([1,2,0], 3), ([2,1,0], 2)] [0, 1, 2] 1
    (by decide) (by decide) (by decide)

/-- Claim C5: the transferable vote selector with the Droop quota and the Hare
transferer elects exactly Mary Robinson on the Irish 1990 presidential
vote profile with one seat. -/
theorem C5_irish_1990 :
    TransferableVoteSelector.evaluate
      [(["Mary Robinson"], 612265),
       (["Brian Lenihan"], 694484),
       (["Austin Currie", "Brian Lenihan"], 36789),
       (["Austin Currie", "Mary Robinson"], 205565),
       (["Austin Currie"], 25548)] 1
      = .ok ["Mary Robinson"] := by decide

/-- Claim C6: in a successful highest-averages apportionment with
positive divisors, raising the vote count of one option while holding
the seat count and the votes of every other option fixed never lowers
the seats awarded to that option. -/
theorem C6_highest_averages_monotone (d : ℕ → ℚ) (cs : List α) (v v' : α → ℕ)
    (i : α) (n : ℕ) (a b : ℕ)
    (hd : ∀ k, 0 < d (k + 1)) (hnd : cs.Nodup)
    (hvi : v i ≤ v' i) (hother : ∀ j, j ≠ i → v' j = v j)
    (hs : haSeats d cs v n i = some a) (hs' : haSeats d cs v' n i = some b) :
    a ≤ b := by
  obtain ⟨s, hrun, hsa⟩ := haSeats_some_inv hs
  obtain ⟨s', hrun', hsb⟩ := haSeats_some_inv hs'
  rw [← hsa, ← hsb]
  exact haRun_mono hd hnd hvi hother hrun hrun'

/-- Witness for C6 with two options under the d_hondt divisor. -/
theorem C6_highest_averages_monotone_witness : (1 : ℕ) ≤ 2 :=
  C6_highest_averages_monotone dHondtDivisor [0, 1]
    (fun c => if c = 0 then 3 else 5) (fun c => if c = 0 then 6 else 5) 0 3 1 2
    dHondtDivisor_pos (by decide) (by decide)
    (fun j hj => by simp [hj]) (by decide) (by decide)

/-- Claim C7: when the decisive criterion does not discriminate, the result is
a tie marker carrying the tied option set, and composite evaluators
either resolve a tie through their explicitly attached policy or
re-propagate errors unchanged: a first-round tie between at least two
options aborts every highest-averages run with exactly that tied set;
two options tied at the maximal Copeland score both appear in the
Copeland selection, and two options tied at the minimal worst defeat
both appear in the Minimax selection, so a Condorcet score tie is
reported as the tied set rather than silently resolved; a transferable
vote round whose lowest tally is shared by at least two continuing
candidates below quota aborts with exactly that tied set instead of
eliminating one of them, and a round whose highest tally among the
candidates meeting quota is shared by at least two aborts with exactly
that tied set instead of electing one of them; the post-conversion and
pre-conversion wrappers re-propagate a child error unchanged; and the
tie-breaking wrapper resolves a child tie through its policy and passes
decisive child results through. -/
theorem C7_tie_handling (d : ℕ → ℚ) :
    (∀ (cs : List α) (v : α → ℕ) (n : ℕ) (ts : List α),
      tiedMax (cs.map fun c => (c, haQuotient d (v c) 0)) = ts → 2 ≤ ts.length →
      haRun d cs v (n + 1) = .error ts)
    ∧ (∀ (cs : List α) (m : α → α → ℕ) (x y : α), x ∈ cs → y ∈ cs →
        (∀ z ∈ cs, copelandScore cs m z ≤ copelandScore cs m x) →
        copelandScore cs m y = copelandScore cs m x →
        x ∈ Copeland.evaluate cs m ∧ y ∈ Copeland.evaluate cs m)
    ∧ (∀ (cs : List α) (m : α → α → ℕ) (x y : α), x ∈ cs → y ∈ cs →
        (∀ z ∈ cs, worstDefeat cs m x ≤ worstDefeat cs m z) →
        worstDefeat cs m y = worstDefeat cs m x →
        x ∈ Minimax.evaluate cs m ∧ y ∈ Minimax.evaluate cs m)
    ∧ (∀ (q fuel : ℕ) (active : List α) (votes : List (List α × ℕ))
        (elected : List α) (k : ℕ) (ls : List α),
        ¬ active.length ≤ k + 1 →
        active.filter (fun c => q ≤ stvTally votes active c) = [] →
        tiedMin (active.map fun c => (c, stvTally votes active c)) = ls →
        2 ≤ ls.length →
        stvLoop q (fuel + 1) active votes elected (k + 1) = .error ls)
    ∧ (∀ (q fuel : ℕ) (active : List α) (votes : List (List α × ℕ))
        (elected : List α) (k : ℕ) (c : α) (over : List α) (ws : List α),
        ¬ active.length ≤ k + 1 →
        active.filter (fun x => q ≤ stvTally votes active x) = c :: over →
        tiedMax ((c :: over).map fun w => (w, stvTally votes active w)) = ws →
        2 ≤ ws.length →
        stvLoop q (fuel + 1) active votes elected (k + 1) = .error ws)
    ∧ (∀ (V ε β γ : Type) (ev : V → ℕ → Except ε β) (conv : β → γ)
        (votes : V) (n : ℕ) (e : ε), ev votes n = .error e →
        PostConverted.evaluate ev conv votes n = .error e)
    ∧ (∀ (V ε β : Type) (conv : V → V) (ev : V → ℕ → Except ε β)
        (votes : V) (n : ℕ) (e : ε), ev (conv votes) n = .error e →
        PreConverted.evaluate conv ev votes n = .error e)
    ∧ (∀ (V β : Type) (ev : V → ℕ → Except (List α) β) (policy : List α → β)
        (votes : V) (n : ℕ) (ts : List α), ev votes n = .error ts →
        TieBreaking.evaluate ev policy votes n = .ok (policy ts))
    ∧ (∀ (V β : Type) (ev : V → ℕ → Except (List α) β) (policy : List α → β)
        (votes : V) (n : ℕ) (r : β), ev votes n = .ok r →
        TieBreaking.evaluate ev policy votes n = .ok r) := by
  refine ⟨?_, ?_, ?_, ?_, ?_, ?_, ?_, ?_, ?_⟩
  · intro cs v n ts hts h2
    subst hts
    apply haRun_tie
    exact haRound_tie_of_two h2
  · intro cs m x y hx hy hub heq
    unfold Copeland.evaluate
    refine ⟨tiedMax_map_mem_of_max _ hx hub, ?_⟩
    apply tiedMax_map_mem_of_max _ hy
    intro z hz
    rw [heq]
    exact hub z hz
  · intro cs m x y hx hy hlb heq
    unfold Minimax.evaluate
    refine ⟨tiedMin_map_mem_of_min _ hx hlb, ?_⟩
    apply tiedMin_map_mem_of_min _ hy
    intro z hz
    rw [heq]
    exact hlb z hz
  · intro q fuel active votes elected k ls hlen hnoq hmin h2
    exact stvLoop_elimination_tie hlen hnoq hmin h2
  · intro q fuel active votes elected k c over ws hlen hoq hmax h2
    exact stvLoop_election_tie hlen hoq hmax h2
  · intro V ε β γ ev conv votes n e he
    unfold PostConverted.evaluate
    rw [he]
    rfl
  · intro V ε β conv ev votes n e he
    unfold PreConverted.evaluate
    rw [he]
  · intro V β ev policy votes n ts hts
    unfold TieBreaking.evaluate
    rw [hts]
  · intro V β ev policy votes n r hr
    unfold TieBreaking.evaluate
    rw [hr]

/-- Witness for C7: a concrete two-way highest-averages tie, a symmetric
two-candidate Condorcet profile tying both Copeland and Minimax, a
transferable vote elimination tie and a final-seat election tie, and
concrete wrappers. -/
theorem C7_tie_handling_witness :
    haRun dHondtDivisor [0, 1] (fun _ => 5) 3 = .error [0, 1]
    ∧ ((0 : ℕ) ∈ Copeland.evaluate [0, 1] (pairwinCounts [([0, 1], 3), ([1, 0], 3)])
        ∧ 1 ∈ Copeland.evaluate [0, 1] (pairwinCounts [([0, 1], 3), ([1, 0], 3)]))
    ∧ ((0 : ℕ) ∈ Minimax.evaluate [0, 1] (pairwinCounts [([0, 1], 3), ([1, 0], 3)])
        ∧ 1 ∈ Minimax.evaluate [0, 1] (pairwinCounts [([0, 1], 3), ([1, 0], 3)]))
    ∧ stvLoop 100 4 [0, 1, 2] [([0], 5), ([1], 3), ([2], 3)] [] 1 = .error [1, 2]
    ∧ stvLoop 4 4 [0, 1, 2] [([0], 5), ([1], 5), ([2], 1)] [] 1 = .error [0, 1]
    ∧ PostConverted.evaluate (fun (_ : ℕ) (_ : ℕ) => (Except.error 7 : Except ℕ ℕ))
        (fun r => r + 1) 0 1 = .error 7
    ∧ PreConverted.evaluate (fun v : ℕ => v + 1)
        (fun (_ : ℕ) (_ : ℕ) => (Except.error 7 : Except ℕ ℕ)) 0 1 = .error 7
    ∧ TieBreaking.evaluate (fun (_ : ℕ) (_ : ℕ) => (Except.error [1, 2] : Except (List ℕ) ℕ))
        List.length 0 1 = .ok 2
    ∧ TieBreaking.evaluate (fun (_ : ℕ) (_ : ℕ) => (Except.ok 9 : Except (List ℕ) ℕ))
        List.length 0 1 = .ok 9 := by
  have h := C7_tie_handling (α := ℕ) dHondtDivisor
  refine ⟨?_, ?_, ?_, ?_, ?_, ?_, ?_, ?_, ?_⟩
  · exact h.1 [0, 1] (fun _ => 5) 2 [0, 1] (by decide) (by decide)
  · exact h.2.1 [0, 1] (pairwinCounts [([0, 1], 3), ([1, 0], 3)]) 0 1
      (by decide) (by decide) (by decide) (by decide)
  · exact h.2.2.1 [0, 1] (pairwinCounts [([0, 1], 3), ([1, 0], 3)]) 0 1
      (by decide) (by decide) (by decide) (by decide)
  · exact h.2.2.2.1 100 3 [0, 1, 2] [([0], 5), ([1], 3), ([2], 3)] [] 0 [1, 2]
      (by decide) (by decide) (by decide) (by decide)
  · exact h.2.2.2.2.1 4 3 [0, 1, 2] [([0], 5), ([1], 5), ([2], 1)] [] 0 0 [1] [0, 1]
      (by decide) (by decide) (by decide) (by decide)
  · exact h.2.2.2.2.2.1 ℕ ℕ ℕ ℕ (fun _ _ => Except.error 7) (fun r => r + 1) 0 1 7 rfl
  · exact h.2.2.2.2.2.2.1 ℕ ℕ ℕ (fun v => v + 1) (fun _ _ => Except.error 7) 0 1 7 rfl
  · exact h.2.2.2.2.2.2.2.1 ℕ ℕ (fun _ _ => Except.error [1, 2]) List.length 0 1 [1, 2] rfl
  · exact h.2.2.2.2.2.2.2.2 ℕ ℕ (fun _ _ => Except.ok 9) List.length 0 1 9 rfl

/-- Claim C8: every modelled evaluation is deterministic: identical votes and
seat counts give identical results, and the Hare transfer is a
reproducible function of ballot order: walking the assigned ballots from
the front it moves exactly the surplus, capped by the available assigned
weight, and leaves all other ballots unchanged. -/
theorem C8_determinism :
    (∀ (votes₁ votes₂ : List (List α × ℕ)) (s₁ s₂ : ℕ), votes₁ = votes₂ → s₁ = s₂ →
      TransferableVoteSelector.evaluate votes₁ s₁ = TransferableVoteSelector.evaluate votes₂ s₂)
    ∧ (∀ (asg : List α → Bool) (surplus : ℕ) (l : List (List α × ℕ)),
        (((hareTransfer asg surplus l).filter (fun p => asg p.1)).map Prod.snd).sum
          = min surplus ((l.filter (fun p => asg p.1)).map Prod.snd).sum)
    ∧ (∀ (asg : List α → Bool) (surplus : ℕ) (l : List (List α × ℕ)),
        (hareTransfer asg surplus l).filter (fun p => ! asg p.1)
          = l.filter (fun p => ! asg p.1)) := by
  refine ⟨?_, ?_, ?_⟩
  · intro votes₁ votes₂ s₁ s₂ hv hs
    rw [hv, hs]
  · exact fun asg surplus l => hareTransfer_assigned_sum asg surplus l
  · exact fun asg surplus l => hareTransfer_unassigned asg surplus l

/-- Witness for C8 at a concrete surplus transfer. -/
theorem C8_determinism_witness :
    TransferableVoteSelector.evaluate [([0, 1], 4)] 1
        = TransferableVoteSelector.evaluate [([0, 1], 4)] 1
    ∧ (((hareTransfer (fun _ => true) 3 [([0], 2), ([1], 4)]).filter
          (fun p => (fun _ => true) p.1)).map Prod.snd).sum
        = min 3 (([([0], 2), ([1], 4)].filter (fun p => (fun _ => true) p.1)).map Prod.snd).sum
    ∧ (hareTransfer (fun b => decide (b = [0])) 3 [([0], 2), ([1], 4)]).filter
          (fun p => ! (fun b => decide (b = [0])) p.1)
        = [([0], 2), ([1], 4)].filter (fun p => ! (fun b => decide (b = [0])) p.1) := by
  refine ⟨?_, ?_, ?_⟩
  · exact C8_determinism.1 [([0, 1], 4)] [([0, 1], 4)] 1 1 rfl rfl
  · exact C8_determinism.2.1 (fun _ => true) 3 [([0], 2), ([1], 4)]
  · exact C8_determinism.2.2 (fun b => decide (b = [0])) 3 [([0], 2), ([1], 4)]

/-- Claim C9: the seat count of a transferable-vote evaluation defaults to
one: evaluating without a seat count equals evaluating for one seat. -/
theorem C9_default_seat_count (votes : List (List α × ℕ)) :
    TransferableVoteSelector.evaluate votes = TransferableVoteSelector.evaluate votes 1 := rfl

end Claims

end Votelib
